import Mathlib

/-!
Verification of the massalabs/gossip repository: a shallow embedding in Lean 4 of
the deniable block store (DBS, `gossip-storage/rust/src`) and the Agraphon session
protocol (ASP, `wasm/crypto-agraphon`, `wasm/sessions`).

The external cryptographic primitives (AEAD, KEM, password KDF, HKDF, RNG) are out
of scope of the repository and are modelled symbolically according to their
contracts: an AEAD ciphertext is an opaque value that decrypts exactly under the
key and plaintext it was produced from, and KDF/RNG outputs are abstract
deterministic values supplied as inputs.
-/

namespace Gossip

/-! ## Padding-size sampler (`gossip-storage/rust/src/blob.rs`) -/

/-- Integer bounds of the padding configuration (`PaddingValues` in `config.rs`).
The rejection-sampling control flow of `draw_block_size_with_config` depends only
on these two fields; the log-normal parameters feed the abstracted float pipeline. -/
structure PaddingValues where
  block_size_min : Nat
  block_size_max : Nat
  deriving DecidableEq

/-- Maximum iterations for rejection sampling (`MAX_SAMPLING_ITERATIONS` in `blob.rs`). -/
def MAX_SAMPLING_ITERATIONS : Nat := 10000

/-- Failure modes of `draw_block_size_with_config`: the initial assertion failure
for an impossible capacity request, and the failure after the iteration cap. -/
inductive DrawError where
  | capacityExceeded
  | samplerTimeout
  deriving DecidableEq

/-- Acceptance test of the rejection loop in `draw_block_size_with_config`:
the candidate size must lie within the configured bounds and fit the capacity
needed (`size >= block_size_min && size <= block_size_max && size >= min_capacity_needed`). -/
def size_accepted (padding : PaddingValues) (min_capacity_needed size : Nat) : Bool :=
  decide (padding.block_size_min ≤ size) && decide (size ≤ padding.block_size_max) &&
    decide (min_capacity_needed ≤ size)

/-- Rejection loop of `draw_block_size_with_config`, with the Box-Muller / log-normal
float pipeline abstracted as the stream `draws` of candidate sizes (one candidate per
iteration, a pure function of the external RNG output). `fuel` is the number of
remaining iterations; the loop starts with `MAX_SAMPLING_ITERATIONS`. -/
def draw_block_size_loop (draws : Nat → Nat) (min_capacity_needed : Nat)
    (padding : PaddingValues) : Nat → Nat → Except DrawError Nat
  | _, 0 => .error .samplerTimeout
  | iteration, fuel + 1 =>
    let size := draws iteration
    if size_accepted padding min_capacity_needed size then
      .ok size
    else
      draw_block_size_loop draws min_capacity_needed padding (iteration + 1) fuel

/-- Shallow embedding of `draw_block_size_with_config` (`blob.rs`): the initial
assertion rejects `min_capacity_needed > block_size_max` immediately, then the
rejection loop runs for at most `MAX_SAMPLING_ITERATIONS` iterations. -/
def draw_block_size_with_config (draws : Nat → Nat) (min_capacity_needed : Nat)
    (padding : PaddingValues) : Except DrawError Nat :=
  if padding.block_size_max < min_capacity_needed then
    .error .capacityExceeded
  else
    draw_block_size_loop draws min_capacity_needed padding 0 MAX_SAMPLING_ITERATIONS

theorem draw_block_size_loop_ok {draws : Nat → Nat} {c : Nat} {p : PaddingValues}
    {start fuel size : Nat}
    (h : draw_block_size_loop draws c p start fuel = .ok size) :
    ∃ j, start ≤ j ∧ j < start + fuel ∧ draws j = size ∧ size_accepted p c size = true := by
  induction fuel generalizing start with
  | zero => simp [draw_block_size_loop] at h
  | succ n ih =>
    rw [draw_block_size_loop] at h
    by_cases hacc : size_accepted p c (draws start) = true
    · simp only [hacc, if_true] at h
      cases h
      exact ⟨start, le_refl _, by omega, rfl, hacc⟩
    · simp only [hacc, if_false, Bool.false_eq_true] at h
      obtain ⟨j, hj1, hj2, hj3, hj4⟩ := ih h
      exact ⟨j, by omega, by omega, hj3, hj4⟩

theorem draw_block_size_loop_timeout {draws : Nat → Nat} {c : Nat} {p : PaddingValues}
    {start fuel : Nat}
    (h : ∀ j, start ≤ j → j < start + fuel → size_accepted p c (draws j) = false) :
    draw_block_size_loop draws c p start fuel = .error .samplerTimeout := by
  induction fuel generalizing start with
  | zero => simp [draw_block_size_loop]
  | succ n ih =>
    rw [draw_block_size_loop]
    have h0 : size_accepted p c (draws start) = false := h start (le_refl _) (by omega)
    simp only [h0, Bool.false_eq_true, if_false]
    exact ih (fun j hj1 hj2 => h j (by omega) (by omega))

/-- C9: for every padding configuration, `draw_block_size_with_config` fails
immediately (programmer error) when `min_capacity_needed > block_size_max`;
otherwise any size it returns was drawn within the first 10000 iterations and
satisfies `block_size_min <= size <= block_size_max` and `size >= min_capacity_needed`;
and when no draw within the 10000-iteration cap is acceptable it fails with the
sampler-timeout error. -/
theorem draw_block_size_with_config_spec (draws : Nat → Nat) (min_capacity_needed : Nat)
    (padding : PaddingValues) :
    (padding.block_size_max < min_capacity_needed →
      draw_block_size_with_config draws min_capacity_needed padding = .error .capacityExceeded) ∧
    (∀ size, draw_block_size_with_config draws min_capacity_needed padding = .ok size →
      padding.block_size_min ≤ size ∧ size ≤ padding.block_size_max ∧
      min_capacity_needed ≤ size ∧ ∃ j, j < MAX_SAMPLING_ITERATIONS ∧ draws j = size) ∧
    ((min_capacity_needed ≤ padding.block_size_max ∧
        ∀ j, j < MAX_SAMPLING_ITERATIONS →
          size_accepted padding min_capacity_needed (draws j) = false) →
      draw_block_size_with_config draws min_capacity_needed padding =
        .error .samplerTimeout) := by
  refine ⟨fun h => ?_, fun size h => ?_, fun h => ?_⟩
  · simp [draw_block_size_with_config, h]
  · rw [draw_block_size_with_config] at h
    by_cases hc : padding.block_size_max < min_capacity_needed
    · simp [hc] at h
    · simp only [hc, if_false] at h
      obtain ⟨j, hj1, hj2, hj3, hj4⟩ := draw_block_size_loop_ok h
      simp only [size_accepted, Bool.and_eq_true, decide_eq_true_eq] at hj4
      exact ⟨hj4.1.1, hj4.1.2, hj4.2, j, by simpa using hj2, hj3⟩
  · obtain ⟨hc, hnone⟩ := h
    rw [draw_block_size_with_config]
    have hcc : ¬ padding.block_size_max < min_capacity_needed := by omega
    simp only [hcc, if_false]
    exact draw_block_size_loop_timeout (fun j hj1 hj2 => hnone j (by simpa using hj2))

/-- Witness for C9 at a concrete configuration: a capacity request above the
maximum block size fails immediately, and a stream whose draws are all too small
exhausts the iteration cap. -/
theorem draw_block_size_with_config_spec_witness :
    draw_block_size_with_config (fun _ => 0) 600 ⟨100, 500⟩ = .error .capacityExceeded ∧
    draw_block_size_with_config (fun _ => 0) 100 ⟨100, 500⟩ = .error .samplerTimeout := by
  constructor
  · exact (draw_block_size_with_config_spec (fun _ => 0) 600 ⟨100, 500⟩).1 (by decide)
  · exact (draw_block_size_with_config_spec (fun _ => 0) 100 ⟨100, 500⟩).2.2
      ⟨by decide, fun j hj => by simp [size_accepted]⟩

/-! ## ASP session manager (`wasm/sessions/src/session_manager.rs`)

The per-peer `Session` (seeker layer plus Agraphon ratchet) is abstracted as a
black box exposing exactly the interface `SessionManager` uses; the claims C5 and
C6 are about the manager's control flow around that interface. -/

namespace ASP

/-- Output of `Session::try_feed_incoming_message` (`sessions/src/session.rs`),
restricted to the fields the session manager inspects. -/
structure FeedIncomingMessageOutput where
  timestamp : Nat
  message : List Nat
  newly_acknowledged_self_seekers : List (List Nat)
  user_id : List Nat
  deriving DecidableEq

/-- Output of `Session::send_outgoing_message` (`sessions/src/session.rs`). -/
structure SendOutgoingMessageOutput where
  timestamp : Nat
  seeker : List Nat
  data : List Nat
  deriving DecidableEq

/-- Behaviour of a per-peer ASP `Session` (`sessions/src/session.rs`) as a
deterministic transition system over an abstract internal-state index: the
seeker/Agraphon cryptography is external to the manager, so the session is a
black box exposing exactly the four members the manager calls. -/
structure SessionIface where
  seekerOf : Nat → List Nat
  lagOf : Nat → Nat
  feedOf : Nat → List Nat → List Nat → Option (FeedIncomingMessageOutput × Nat)
  sendOf : Nat → List Nat → SendOutgoingMessageOutput × Nat

/-- A `Session` object: its behaviour together with its current internal state.
A `&mut self` method of the source is modelled as returning the successor state. -/
structure SessionModel where
  iface : SessionIface
  state : Nat

/-- Model of `Session::next_peer_message_seeker`. -/
def SessionModel.next_peer_seeker (s : SessionModel) : List Nat :=
  s.iface.seekerOf s.state

/-- Model of `Session::lag_length`. -/
def SessionModel.lag (s : SessionModel) : Nat :=
  s.iface.lagOf s.state

/-- Model of `Session::try_feed_incoming_message`: outcome together with the
mutated session. -/
def SessionModel.feed (s : SessionModel) (seeker bytes : List Nat) :
    Option (FeedIncomingMessageOutput × SessionModel) :=
  (s.iface.feedOf s.state seeker bytes).map (fun r => (r.1, { s with state := r.2 }))

/-- Model of `Session::send_outgoing_message`: output together with the mutated
session. -/
def SessionModel.send (s : SessionModel) (message : List Nat) :
    SendOutgoingMessageOutput × SessionModel :=
  let r := s.iface.sendOf s.state message
  (r.1, { s with state := r.2 })

/-- One active session with its bookkeeping timestamps (`SessionInfo`). -/
structure SessionInfo where
  session : SessionModel
  last_incoming_message_timestamp : Nat
  last_outgoing_message_timestamp : Nat

/-- Per-peer record (`PeerInfo`); for the initiation requests only the timestamp
is retained, which is all the manager logic inspects. -/
structure PeerInfo where
  active_session : Option SessionInfo
  latest_incoming_init_request : Option Nat
  latest_outgoing_init_request : Option Nat

/-- Configuration (`SessionManagerConfig`), all durations in milliseconds. -/
structure SessionManagerConfig where
  max_incoming_announcement_age_millis : Nat
  max_incoming_announcement_future_millis : Nat
  max_incoming_message_age_millis : Nat
  max_incoming_message_future_millis : Nat
  max_session_inactivity_millis : Nat
  keep_alive_interval_millis : Nat
  max_session_lag_length : Nat
  deriving DecidableEq

/-- The multi-peer manager (`SessionManager`): peers are an association list
keyed by the 32-byte `UserId` (modelled as a natural number). -/
structure SessionManager where
  config : SessionManagerConfig
  peers : List (Nat × PeerInfo)

/-- Largest `u128` value; the manager's timestamps are `u128` in the source. -/
def U128_MAX : Nat := 2 ^ 128 - 1

/-- Model of `u128::saturating_add` (natural subtraction is already saturating). -/
def saturating_add_u128 (a b : Nat) : Nat := min (a + b) U128_MAX

/-- Lookup of a peer record (`self.peers.get(peer_id)`). -/
def SessionManager.getPeer (m : SessionManager) (peer_id : Nat) : Option PeerInfo :=
  (m.peers.find? (fun e => e.1 == peer_id)).map (·.2)

/-- Replace the first entry with the given key (the in-place mutation through
`self.peers.get_mut(peer_id)`). -/
def updateFirst (l : List (Nat × PeerInfo)) (peer_id : Nat) (f : PeerInfo → PeerInfo) :
    List (Nat × PeerInfo) :=
  match l with
  | [] => []
  | (k, v) :: rest =>
    if k = peer_id then (k, f v) :: rest else (k, v) :: updateFirst rest peer_id f

def SessionManager.setPeer (m : SessionManager) (peer_id : Nat) (f : PeerInfo → PeerInfo) :
    SessionManager :=
  { m with peers := updateFirst m.peers peer_id f }

/-- Shallow embedding of `SessionManager::inner_feed_incoming_msg`: decode the
message through the located session (mutating it), then reject timestamps that
are too old, too far in the future, or older than the session's last incoming
message; on acceptance update `last_incoming_message_timestamp`. `now` stands
for `timestamp_millis()`. -/
def inner_feed_incoming_msg (m : SessionManager) (now : Nat) (peer_id : Nat)
    (seeker bytes : List Nat) : Option FeedIncomingMessageOutput × SessionManager :=
  let decode : Option FeedIncomingMessageOutput × SessionManager :=
    match m.getPeer peer_id with
    | some pi =>
      match pi.active_session with
      | some si =>
        match si.session.feed seeker bytes with
        | some (out, s2) =>
          (some out, m.setPeer peer_id (fun p =>
            { p with active_session := some { si with session := s2 } }))
        | none => (none, m)
      | none => (none, m)
    | none => (none, m)
  match decode with
  | (none, m1) => (none, m1)
  | (some msg, m1) =>
    if msg.timestamp < now - m.config.max_incoming_message_age_millis then
      (none, m1)
    else if saturating_add_u128 now m.config.max_incoming_message_future_millis <
        msg.timestamp then
      (none, m1)
    else
      match m1.getPeer peer_id with
      | some pi =>
        match pi.active_session with
        | some si =>
          if msg.timestamp < si.last_incoming_message_timestamp then
            (none, m1)
          else
            (some msg, m1.setPeer peer_id (fun p =>
              { p with active_session := p.active_session.map (fun s =>
                  { s with last_incoming_message_timestamp := msg.timestamp }) }))
        | none => (some msg, m1)
      | none => (some msg, m1)

/-- The seeker lookup loop at the start of `feed_incoming_message_board_read`:
first peer (in table order) whose active session expects this seeker. -/
def find_peer_by_seeker (m : SessionManager) (seeker : List Nat) : Option Nat :=
  (m.peers.find? (fun e =>
    match e.2.active_session with
    | some si => si.session.next_peer_seeker == seeker
    | none => false)).map (·.1)

/-- Shallow embedding of `SessionManager::feed_incoming_message_board_read`:
locate the peer by seeker, feed the message, and on any failure after the
session was located drop that peer's active session. -/
def feed_incoming_message_board_read (m : SessionManager) (now : Nat)
    (seeker bytes : List Nat) : Option FeedIncomingMessageOutput × SessionManager :=
  match find_peer_by_seeker m seeker with
  | none => (none, m)
  | some peer_id =>
    let r := inner_feed_incoming_msg m now peer_id seeker bytes
    match r.1 with
    | none => (none, r.2.setPeer peer_id (fun p => { p with active_session := none }))
    | some out => (some out, r.2)

/-- Shallow embedding of `SessionManager::send_message`: refuse when the peer
has no active session or the session lag has reached the configured maximum;
otherwise send through the session and stamp `last_outgoing_message_timestamp`. -/
def send_message (m : SessionManager) (peer_id : Nat) (message : List Nat) :
    Option SendOutgoingMessageOutput × SessionManager :=
  match m.getPeer peer_id with
  | none => (none, m)
  | some pi =>
    match pi.active_session with
    | none => (none, m)
    | some si =>
      if m.config.max_session_lag_length ≤ si.session.lag then
        (none, m)
      else
        let sr := si.session.send message
        let si2 : SessionInfo :=
          { session := sr.2,
            last_incoming_message_timestamp := si.last_incoming_message_timestamp,
            last_outgoing_message_timestamp := sr.1.timestamp }
        (some sr.1, m.setPeer peer_id (fun p => { p with active_session := some si2 }))

end ASP

namespace ASP

theorem updateFirst_lookup (l : List (Nat × PeerInfo)) (peer_id : Nat)
    (f : PeerInfo → PeerInfo) :
    ((updateFirst l peer_id f).find? (fun e => e.1 == peer_id)).map (·.2) =
      ((l.find? (fun e => e.1 == peer_id)).map (·.2)).map f := by
  induction l with
  | nil => simp [updateFirst]
  | cons hd tl ih =>
    obtain ⟨k, v⟩ := hd
    by_cases hk : k = peer_id
    · subst hk
      simp [updateFirst, List.find?]
    · simp only [updateFirst, if_neg hk]
      rw [List.find?_cons_of_neg, List.find?_cons_of_neg]
      · exact ih
      · simpa using hk
      · simpa using hk

theorem getPeer_setPeer (m : SessionManager) (peer_id : Nat) (f : PeerInfo → PeerInfo) :
    (m.setPeer peer_id f).getPeer peer_id = (m.getPeer peer_id).map f := by
  simpa [SessionManager.getPeer, SessionManager.setPeer] using
    updateFirst_lookup m.peers peer_id f

/-- C6: `send_message` returns none and leaves the manager state unchanged
whenever the peer has no active session or the active session's `lag_length()`
has reached `max_session_lag_length`; otherwise it sends through the session and
stamps the peer's `last_outgoing_message_timestamp` with the produced message's
timestamp. -/
theorem send_message_spec (m : SessionManager) (peer_id : Nat) (message : List Nat) :
    ((m.getPeer peer_id).bind (·.active_session) = none →
      send_message m peer_id message = (none, m)) ∧
    (∀ si, (m.getPeer peer_id).bind (·.active_session) = some si →
      (m.config.max_session_lag_length ≤ si.session.lag →
        send_message m peer_id message = (none, m)) ∧
      (si.session.lag < m.config.max_session_lag_length →
        (send_message m peer_id message).1 = some (si.session.send message).1 ∧
        ((send_message m peer_id message).2.getPeer peer_id).bind (·.active_session) =
          some (SessionInfo.mk (si.session.send message).2
            si.last_incoming_message_timestamp
            (si.session.send message).1.timestamp))) := by
  constructor
  · intro h
    cases hg : m.getPeer peer_id with
    | none => simp [send_message, hg]
    | some pi =>
      rw [hg] at h
      simp only [Option.some_bind] at h
      simp [send_message, hg, h]
  · intro si h
    cases hg : m.getPeer peer_id with
    | none => rw [hg] at h; simp at h
    | some pi =>
      rw [hg] at h
      simp only [Option.some_bind] at h
      constructor
      · intro hlag
        simp [send_message, hg, h, hlag]
      · intro hlt
        have hcond : ¬ m.config.max_session_lag_length ≤ si.session.lag := by omega
        constructor
        · simp [send_message, hg, h, hcond]
        · simp only [send_message, hg, h, hcond, if_false]
          rw [getPeer_setPeer]
          simp [hg]

/-- Example session behaviour used to exercise the manager theorems on closed
inputs: lag equals the state index, feeding always fails. -/
def exampleIfaceSat : SessionIface :=
  { seekerOf := fun _ => [1, 2],
    lagOf := fun st => st,
    feedOf := fun _ _ _ => none,
    sendOf := fun st message => (⟨100, [3], message⟩, st + 1) }

def examplePeerSat : PeerInfo :=
  { active_session := some ⟨⟨exampleIfaceSat, 7⟩, 10, 20⟩,
    latest_incoming_init_request := none,
    latest_outgoing_init_request := none }

def exampleManagerSat : SessionManager :=
  { config := ⟨1, 1, 1, 1, 1, 1, 5⟩, peers := [(3, examplePeerSat)] }

/-- Witness for C6: a concrete saturated session (lag 7 against a maximum of 5)
refuses `send_message` and leaves the manager unchanged. -/
theorem send_message_spec_witness :
    send_message exampleManagerSat 3 [9] = (none, exampleManagerSat) :=
  ((send_message_spec exampleManagerSat 3 [9]).2 ⟨⟨exampleIfaceSat, 7⟩, 10, 20⟩ rfl).1
    (by decide)

/-- C5: for every ASP session located by its seeker in
`feed_incoming_message_board_read`, any failure after the session was located -
in particular an incoming message whose timestamp is older than
`now - max_incoming_message_age_millis`, newer than
`now + max_incoming_message_future_millis`, or earlier than the session's last
incoming message timestamp - makes the call return none and removes that peer's
active session. -/
theorem feed_incoming_message_board_read_spec (m : SessionManager) (now : Nat)
    (seeker bytes : List Nat) (peer_id : Nat)
    (hloc : find_peer_by_seeker m seeker = some peer_id) :
    ((feed_incoming_message_board_read m now seeker bytes).1 = none →
      (((feed_incoming_message_board_read m now seeker bytes).2.getPeer peer_id).bind
        (·.active_session)) = none) ∧
    (∀ si out s2, (m.getPeer peer_id).bind (·.active_session) = some si →
      si.session.feed seeker bytes = some (out, s2) →
      (out.timestamp < now - m.config.max_incoming_message_age_millis ∨
        saturating_add_u128 now m.config.max_incoming_message_future_millis < out.timestamp ∨
        out.timestamp < si.last_incoming_message_timestamp) →
      (feed_incoming_message_board_read m now seeker bytes).1 = none ∧
      (((feed_incoming_message_board_read m now seeker bytes).2.getPeer peer_id).bind
        (·.active_session)) = none) := by
  have hdrop : (inner_feed_incoming_msg m now peer_id seeker bytes).1 = none →
      (feed_incoming_message_board_read m now seeker bytes).1 = none ∧
      (((feed_incoming_message_board_read m now seeker bytes).2.getPeer peer_id).bind
        (·.active_session)) = none := by
    intro hr
    simp only [feed_incoming_message_board_read, hloc]
    rw [hr]
    refine ⟨rfl, ?_⟩
    rw [getPeer_setPeer]
    cases ((inner_feed_incoming_msg m now peer_id seeker bytes).2.getPeer peer_id) <;> simp
  constructor
  · intro hnone
    cases hr : (inner_feed_incoming_msg m now peer_id seeker bytes).1 with
    | none => exact (hdrop hr).2
    | some out =>
      exfalso
      simp only [feed_incoming_message_board_read, hloc] at hnone
      rw [hr] at hnone
      simp at hnone
  · intro si out s2 hsi hfeed hbad
    cases hg : m.getPeer peer_id with
    | none => rw [hg] at hsi; simp at hsi
    | some pi =>
      rw [hg] at hsi
      simp only [Option.some_bind] at hsi
      have hinner : (inner_feed_incoming_msg m now peer_id seeker bytes).1 = none := by
        simp only [inner_feed_incoming_msg, hg, hsi, hfeed]
        by_cases h1 : out.timestamp < now - m.config.max_incoming_message_age_millis
        · simp [h1]
        · by_cases h2 : saturating_add_u128 now
              m.config.max_incoming_message_future_millis < out.timestamp
          · simp [h1, h2]
          · have h3 : out.timestamp < si.last_incoming_message_timestamp := by tauto
            simp only [h1, h2, if_false, getPeer_setPeer, hg]
            simp [h3]
      exact hdrop hinner

/-- Example session behaviour whose fed messages carry a timestamp (3) older
than the recorded last incoming message timestamp (100). -/
def exampleIfaceStale : SessionIface :=
  { seekerOf := fun _ => [5],
    lagOf := fun _ => 0,
    feedOf := fun _ _ _ => some (⟨3, [1], [], []⟩, 1),
    sendOf := fun st _ => (⟨0, [], []⟩, st) }

def examplePeerStale : PeerInfo :=
  { active_session := some ⟨⟨exampleIfaceStale, 0⟩, 100, 0⟩,
    latest_incoming_init_request := none,
    latest_outgoing_init_request := none }

def exampleManagerStale : SessionManager :=
  { config := ⟨0, 0, 1000, 10, 0, 0, 5⟩, peers := [(4, examplePeerStale)] }

/-- Witness for C5: a concrete in-window message whose timestamp is older than
the session's last incoming timestamp is rejected and the located peer's active
session is dropped. -/
theorem feed_incoming_message_board_read_spec_witness :
    (feed_incoming_message_board_read exampleManagerStale 500 [5] [9]).1 = none ∧
    (((feed_incoming_message_board_read exampleManagerStale 500 [5] [9]).2.getPeer 4).bind
      (·.active_session)) = none :=
  (feed_incoming_message_board_read_spec exampleManagerStale 500 [5] [9] 4 rfl).2
    ⟨⟨exampleIfaceStale, 0⟩, 100, 0⟩ ⟨3, [1], [], []⟩ ⟨exampleIfaceStale, 1⟩ rfl rfl
    (Or.inr (Or.inr (by decide)))

end ASP

/-! ## Agraphon ratchet (`wasm/crypto-agraphon/src/agraphon.rs`, `history.rs`)

KEM secrets, public keys and chain keys are opaque crypto values, modelled as
naturals. Under the ideal-AEAD/KEM model, a wire message decrypts against
exactly one choice of parent: the history item the sender encapsulated to, with
the chain keys that entered the sender's root KDF. -/

namespace AgraphonProto

/-- `HistoryItemSelf` (`history.rs`): one of our sent messages. -/
structure HistoryItemSelf where
  seeker : List Nat
  height : Nat
  sk_next : Nat
  k_next : Nat
  deriving DecidableEq

/-- `HistoryItemPeer` (`history.rs`): the peer's most recent message. -/
structure HistoryItemPeer where
  our_parent_height : Nat
  pk_next : Nat
  k_next : Nat
  deriving DecidableEq

/-- `Agraphon` session state: the deque of our sent messages (front first) and
the peer's latest message. -/
structure Agraphon where
  self_msg_history : List HistoryItemSelf
  latest_peer_msg : HistoryItemPeer
  deriving DecidableEq

/-- The ratchet material of a finalized `OutgoingAnnouncement`. -/
structure OutgoingAnnouncement where
  sk_next : Nat
  k_next : Nat
  deriving DecidableEq

/-- The ratchet material of a parsed `IncomingAnnouncement`. -/
structure IncomingAnnouncement where
  pk_next : Nat
  k_next : Nat
  deriving DecidableEq

/-- Shallow embedding of `Agraphon::from_announcement_pair`: the history is
seeded with a single item of height 1 (empty seeker) and the peer state starts
at parent height 0. -/
def from_announcement_pair (o : OutgoingAnnouncement) (i : IncomingAnnouncement) : Agraphon :=
  { self_msg_history := [⟨[], 1, o.sk_next, o.k_next⟩],
    latest_peer_msg := ⟨0, i.pk_next, i.k_next⟩ }

/-- The `height`s of the history, front first. -/
def heights (a : Agraphon) : List Nat :=
  a.self_msg_history.map (·.height)

/-- Shallow embedding of `Agraphon::get_self_message_by_height`: index
arithmetic relative to the front item's height (`checked_sub` returns `None`
when the height is below the front). -/
def get_self_message_by_height (a : Agraphon) (height : Nat) : Option HistoryItemSelf :=
  match a.self_msg_history.head? with
  | none => none
  | some first =>
    if height < first.height then none
    else a.self_msg_history[height - first.height]?

/-- Symbolic wire message fed to `try_feed_incoming_message`: `parent_height` is
the height of the receiver-side history item whose ephemeral KEM secret the
sender encapsulated to; `parent_self_k` and `parent_peer_k` are the two chain
keys that entered the sender's root KDF (they must match the candidate item's
`k_next` and the receiver's `latest_peer_msg.k_next` for the AEAD decryption to
authenticate); `pk_next`, `k_next` and `payload` are the decrypted contents. -/
structure IncomingMessage where
  parent_height : Nat
  parent_self_k : Nat
  parent_peer_k : Nat
  pk_next : Nat
  k_next : Nat
  payload : List Nat
  deriving DecidableEq

/-- `FeedIncomingMessageResult` (`agraphon.rs`). -/
structure FeedIncomingMessageResult where
  message_bytes : List Nat
  newly_acknowledged_self_seekers : List (List Nat)
  deriving DecidableEq

/-- Shallow embedding of `Agraphon::try_incoming_message_with_self_parent`:
look up the candidate parent, attempt the (ideal) AEAD decryption, and on
success replace `latest_peer_msg`, pop from the front every item of height
strictly below the matched parent (collecting their seekers), and append the
matched item's seeker. -/
def try_incoming_message_with_self_parent (a : Agraphon) (our_parent_height : Nat)
    (msg : IncomingMessage) : Option (FeedIncomingMessageResult × Agraphon) :=
  match get_self_message_by_height a our_parent_height with
  | none => none
  | some peer_msg =>
    if msg.parent_height = our_parent_height ∧ msg.parent_self_k = peer_msg.k_next ∧
        msg.parent_peer_k = a.latest_peer_msg.k_next then
      let acked := (a.self_msg_history.takeWhile
        (fun m => decide (m.height < our_parent_height))).map (·.seeker)
      let pruned := a.self_msg_history.dropWhile
        (fun m => decide (m.height < our_parent_height))
      some (⟨msg.payload, acked ++ [peer_msg.seeker]⟩,
        { self_msg_history := pruned,
          latest_peer_msg := ⟨our_parent_height, msg.pk_next, msg.k_next⟩ })
    else
      none

/-- The scan loop of `try_feed_incoming_message`: try every height of the
history, newest to oldest, returning the first success. -/
def feed_scan (a : Agraphon) (msg : IncomingMessage) :
    List Nat → Option (FeedIncomingMessageResult × Agraphon)
  | [] => none
  | h :: rest =>
    match try_incoming_message_with_self_parent a h msg with
    | some r => some r
    | none => feed_scan a msg rest

/-- Shallow embedding of `Agraphon::try_feed_incoming_message`. -/
def try_feed_incoming_message (a : Agraphon) (msg : IncomingMessage) :
    Option (FeedIncomingMessageResult × Agraphon) :=
  feed_scan a msg ((a.self_msg_history.map (·.height)).reverse)

/-- Shallow embedding of `Agraphon::send_outgoing_message`, state part: the wire
bytes (randomness, KEM capsules, ciphertext) are opaque crypto output and are
not modelled; `fresh_sk` and `fresh_k` stand for the freshly generated ephemeral
secret and the root-KDF chain key. `none` models the panic on an empty history. -/
def send_outgoing_message (a : Agraphon) (seeker _payload : List Nat)
    (_peer_static_pk fresh_sk fresh_k : Nat) : Option Agraphon :=
  match a.self_msg_history.getLast? with
  | none => none
  | some p_self =>
    some { a with self_msg_history :=
      a.self_msg_history ++ [⟨seeker, p_self.height + 1, fresh_sk, fresh_k⟩] }

/-- Shallow embedding of `Agraphon::lag_length`: `none` models the two panics
(empty history, negative lag from `checked_sub`). -/
def lag_length (a : Agraphon) : Option Nat :=
  (a.self_msg_history.getLast?).bind (fun b =>
    if b.height < a.latest_peer_msg.our_parent_height then none
    else some (b.height - a.latest_peer_msg.our_parent_height))

/-- States reachable from `from_announcement_pair` by sends and successful feeds. -/
inductive Reachable : Agraphon → Prop where
  | init (o : OutgoingAnnouncement) (i : IncomingAnnouncement) :
      Reachable (from_announcement_pair o i)
  | send (a : Agraphon) (seeker payload : List Nat) (pk sk k : Nat) (a2 : Agraphon) :
      Reachable a → send_outgoing_message a seeker payload pk sk k = some a2 →
      Reachable a2
  | feed (a : Agraphon) (msg : IncomingMessage) (res : FeedIncomingMessageResult)
      (a2 : Agraphon) : Reachable a →
      try_feed_incoming_message a msg = some (res, a2) → Reachable a2

/-- Structural invariant: the history heights form a contiguous ascending range
`[f, f+n)` with `n > 0`, and the acknowledged parent height is at most the front. -/
def Inv (a : Agraphon) : Prop :=
  ∃ f n, 0 < n ∧ heights a = List.range' f n ∧ a.latest_peer_msg.our_parent_height ≤ f

end AgraphonProto

namespace AgraphonProto

theorem range'_getLast? {f n : Nat} (hn : 0 < n) :
    (List.range' f n).getLast? = some (f + n - 1) := by
  cases n with
  | zero => omega
  | succ m =>
    rw [List.range'_concat, List.getLast?_concat]
    simp

theorem dropWhile_lt_range' {f n h : Nat} (h1 : f ≤ h) (h2 : h < f + n) :
    (List.range' f n).dropWhile (fun x => decide (x < h)) = List.range' h (f + n - h) := by
  induction n generalizing f with
  | zero => omega
  | succ m ih =>
    rw [List.range'_succ, List.dropWhile_cons]
    by_cases hf : f < h
    · rw [decide_eq_true hf]
      simp only [if_true]
      have := ih (f := f + 1) (by omega) (by omega)
      rw [this]
      congr 1
      omega
    · rw [decide_eq_false hf]
      simp only [Bool.false_eq_true, if_false]
      have hfh : f = h := by omega
      subst hfh
      have hm : f + (m + 1) - f = m + 1 := by omega
      rw [hm, List.range'_succ]

theorem heights_head {a : Agraphon} {f n : Nat} (hn : 0 < n)
    (hh : heights a = List.range' f n) {first : HistoryItemSelf}
    (hfirst : a.self_msg_history.head? = some first) : first.height = f := by
  have h1 : (heights a).head? = some first.height := by
    rw [heights, List.head?_map, hfirst]
    rfl
  rw [hh] at h1
  cases n with
  | zero => omega
  | succ m =>
    rw [List.range'_succ] at h1
    simp at h1
    omega

theorem heights_getLast {a : Agraphon} {f n : Nat} (hn : 0 < n)
    (hh : heights a = List.range' f n) {b : HistoryItemSelf}
    (hb : a.self_msg_history.getLast? = some b) : b.height = f + n - 1 := by
  have h1 : (heights a).getLast? = some b.height := by
    rw [heights, List.getLast?_map, hb]
    rfl
  rw [hh, range'_getLast? hn] at h1
  simpa using h1.symm

theorem history_getLast_isSome {a : Agraphon} {f n : Nat} (hn : 0 < n)
    (hh : heights a = List.range' f n) : ∃ b, a.self_msg_history.getLast? = some b := by
  have hlen : a.self_msg_history.length = n := by
    have := congrArg List.length hh
    simpa [heights] using this
  cases hl : a.self_msg_history.getLast? with
  | some b => exact ⟨b, rfl⟩
  | none =>
    rw [List.getLast?_eq_none_iff] at hl
    rw [hl] at hlen
    simp at hlen
    omega

theorem get_by_height_bounds {a : Agraphon} {f n h : Nat} {it : HistoryItemSelf}
    (hn : 0 < n) (hh : heights a = List.range' f n)
    (hget : get_self_message_by_height a h = some it) : f ≤ h ∧ h < f + n := by
  rw [get_self_message_by_height] at hget
  cases hfirst : a.self_msg_history.head? with
  | none => rw [hfirst] at hget; simp at hget
  | some first =>
    rw [hfirst] at hget
    have hf : first.height = f := heights_head hn hh hfirst
    by_cases hlt : h < first.height
    · simp [hlt] at hget
    · simp only [hlt, if_false] at hget
      have hidx : h - first.height < a.self_msg_history.length :=
        (List.getElem?_eq_some_iff.mp hget).1
      have hlen : a.self_msg_history.length = n := by
        have := congrArg List.length hh
        simpa [heights] using this
      omega

theorem feed_scan_some {a : Agraphon} {msg : IncomingMessage} {l : List Nat}
    {r : FeedIncomingMessageResult × Agraphon} (hs : feed_scan a msg l = some r) :
    ∃ h ∈ l, try_incoming_message_with_self_parent a h msg = some r := by
  induction l with
  | nil => simp [feed_scan] at hs
  | cons hd tl ih =>
    rw [feed_scan] at hs
    cases htry : try_incoming_message_with_self_parent a hd msg with
    | some r2 =>
      rw [htry] at hs
      cases hs
      exact ⟨hd, by simp, htry⟩
    | none =>
      rw [htry] at hs
      obtain ⟨h, hmem, hh⟩ := ih hs
      exact ⟨h, by simp [hmem], hh⟩

theorem try_parent_char {a : Agraphon} {h : Nat} {msg : IncomingMessage}
    {res : FeedIncomingMessageResult} {a2 : Agraphon}
    (htry : try_incoming_message_with_self_parent a h msg = some (res, a2)) :
    (∃ it, get_self_message_by_height a h = some it) ∧
    a2.self_msg_history = a.self_msg_history.dropWhile (fun m => decide (m.height < h)) ∧
    a2.latest_peer_msg = ⟨h, msg.pk_next, msg.k_next⟩ := by
  rw [try_incoming_message_with_self_parent] at htry
  cases hget : get_self_message_by_height a h with
  | none => rw [hget] at htry; simp at htry
  | some it =>
    rw [hget] at htry
    by_cases hcond : msg.parent_height = h ∧ msg.parent_self_k = it.k_next ∧
        msg.parent_peer_k = a.latest_peer_msg.k_next
    · simp only [hcond, if_true] at htry
      cases htry
      exact ⟨⟨it, rfl⟩, rfl, rfl⟩
    · simp [hcond] at htry

theorem feed_char {a : Agraphon} {msg : IncomingMessage}
    {res : FeedIncomingMessageResult} {a2 : Agraphon} {f n : Nat}
    (hn : 0 < n) (hh : heights a = List.range' f n)
    (hfeed : try_feed_incoming_message a msg = some (res, a2)) :
    ∃ h, f ≤ h ∧ h < f + n ∧
      a2.self_msg_history = a.self_msg_history.dropWhile (fun m => decide (m.height < h)) ∧
      a2.latest_peer_msg = ⟨h, msg.pk_next, msg.k_next⟩ ∧
      heights a2 = List.range' h (f + n - h) := by
  obtain ⟨h, _, htry⟩ := feed_scan_some hfeed
  obtain ⟨⟨it, hget⟩, hhist, hpeer⟩ := try_parent_char htry
  obtain ⟨hf, hfn⟩ := get_by_height_bounds hn hh hget
  refine ⟨h, hf, hfn, hhist, hpeer, ?_⟩
  have : heights a2 = (heights a).dropWhile (fun x => decide (x < h)) := by
    rw [heights, hhist, heights, List.dropWhile_map]
    rfl
  rw [this, hh, dropWhile_lt_range' hf hfn]

theorem send_char {a a2 : Agraphon} {seeker payload : List Nat} {pk sk k : Nat}
    (hsend : send_outgoing_message a seeker payload pk sk k = some a2) :
    ∃ p, a.self_msg_history.getLast? = some p ∧
      a2.self_msg_history = a.self_msg_history ++ [⟨seeker, p.height + 1, sk, k⟩] ∧
      a2.latest_peer_msg = a.latest_peer_msg := by
  rw [send_outgoing_message] at hsend
  cases hp : a.self_msg_history.getLast? with
  | none => rw [hp] at hsend; simp at hsend
  | some p =>
    rw [hp] at hsend
    cases hsend
    exact ⟨p, rfl, rfl, rfl⟩

theorem reach_inv {a : Agraphon} (h : Reachable a) : Inv a := by
  induction h with
  | init o i =>
    refine ⟨1, 1, Nat.one_pos, ?_, ?_⟩
    · simp [heights, from_announcement_pair, List.range']
    · simp [from_announcement_pair]
  | send a seeker payload pk sk k a2 _ hsend ih =>
    obtain ⟨f, n, hn, hh, hp⟩ := ih
    obtain ⟨p, hlast, hhist, hpeer⟩ := send_char hsend
    have hph : p.height = f + n - 1 := heights_getLast hn hh hlast
    refine ⟨f, n + 1, by omega, ?_, ?_⟩
    · rw [heights, hhist, List.map_append, ← heights, hh]
      simp only [List.map_cons, List.map_nil]
      rw [List.range'_concat]
      congr 2
      omega
    · rw [hpeer]
      exact hp
  | feed a msg res a2 _ hfeed ih =>
    obtain ⟨f, n, hn, hh, hp⟩ := ih
    obtain ⟨h, hf, hfn, _, hpeer, hh2⟩ := feed_char hn hh hfeed
    refine ⟨h, f + n - h, by omega, hh2, ?_⟩
    rw [hpeer]

end AgraphonProto

namespace AgraphonProto


theorem lag_length_eq {a : Agraphon} {b : HistoryItemSelf}
    (hb : a.self_msg_history.getLast? = some b)
    (hge : a.latest_peer_msg.our_parent_height ≤ b.height) :
    lag_length a = some (b.height - a.latest_peer_msg.our_parent_height) := by
  rw [lag_length, hb, Option.some_bind, if_neg (by omega)]

/-- C7: on every reachable Agraphon state, `lag_length()` is defined and equals
the back history item's height minus `latest_peer_msg.our_parent_height` (the
subtraction cannot panic); `send_outgoing_message` increases the lag by exactly
one; and a successful `try_feed_incoming_message` never increases it. -/
theorem lag_length_spec :
    (∀ a, Reachable a → ∃ b, a.self_msg_history.getLast? = some b ∧
      a.latest_peer_msg.our_parent_height ≤ b.height ∧
      lag_length a = some (b.height - a.latest_peer_msg.our_parent_height)) ∧
    (∀ a seeker payload pk sk k a2, Reachable a →
      send_outgoing_message a seeker payload pk sk k = some a2 →
      ∃ l, lag_length a = some l ∧ lag_length a2 = some (l + 1)) ∧
    (∀ a msg res a2, Reachable a → try_feed_incoming_message a msg = some (res, a2) →
      ∃ l l2, lag_length a = some l ∧ lag_length a2 = some l2 ∧ l2 ≤ l) := by
  refine ⟨?_, ?_, ?_⟩
  · intro a ha
    obtain ⟨f, n, hn, hh, hp⟩ := reach_inv ha
    obtain ⟨b, hb⟩ := history_getLast_isSome hn hh
    have hbh : b.height = f + n - 1 := heights_getLast hn hh hb
    exact ⟨b, hb, by omega, lag_length_eq hb (by omega)⟩
  · intro a seeker payload pk sk k a2 ha hsend
    obtain ⟨f, n, hn, hh, hp⟩ := reach_inv ha
    obtain ⟨p, hlast, hhist, hpeer⟩ := send_char hsend
    have hph : p.height = f + n - 1 := heights_getLast hn hh hlast
    have hlast2 : a2.self_msg_history.getLast? =
        some ⟨seeker, p.height + 1, sk, k⟩ := by
      rw [hhist, List.getLast?_concat]
    have hlag2 : lag_length a2 =
        some (p.height + 1 - a2.latest_peer_msg.our_parent_height) :=
      lag_length_eq hlast2 (by rw [hpeer]; simp; omega)
    refine ⟨p.height - a.latest_peer_msg.our_parent_height,
      lag_length_eq hlast (by omega), ?_⟩
    rw [hlag2, hpeer]
    simp only [Option.some.injEq]
    omega
  · intro a msg res a2 ha hfeed
    obtain ⟨f, n, hn, hh, hp⟩ := reach_inv ha
    obtain ⟨b, hb⟩ := history_getLast_isSome hn hh
    have hbh : b.height = f + n - 1 := heights_getLast hn hh hb
    obtain ⟨h, hf, hfn, hhist, hpeer, hh2⟩ := feed_char hn hh hfeed
    obtain ⟨b2, hb2⟩ := history_getLast_isSome (n := f + n - h) (by omega) hh2
    have hb2h : b2.height = h + (f + n - h) - 1 := heights_getLast (by omega) hh2 hb2
    have hp2 : a2.latest_peer_msg.our_parent_height = h := by rw [hpeer]
    refine ⟨b.height - a.latest_peer_msg.our_parent_height,
      b2.height - a2.latest_peer_msg.our_parent_height,
      lag_length_eq hb (by omega), lag_length_eq hb2 (by rw [hp2]; omega), ?_⟩
    rw [hp2]
    omega

/-- Witness for C7: on the concrete initial session the lag is defined and
equals 1 (back height 1 minus parent height 0). -/
theorem lag_length_spec_witness :
    lag_length (from_announcement_pair ⟨1, 2⟩ ⟨3, 4⟩) = some 1 := by
  obtain ⟨b, hb, hpb, hlag⟩ := lag_length_spec.1 _ (Reachable.init ⟨1, 2⟩ ⟨3, 4⟩)
  have hb2 : b = ⟨[], 1, 1, 2⟩ := by
    have : (from_announcement_pair ⟨1, 2⟩ ⟨3, 4⟩).self_msg_history.getLast? =
        some ⟨[], 1, 1, 2⟩ := rfl
    rw [this] at hb
    exact (Option.some.injEq _ _ ▸ hb.symm)
  rw [hlag, hb2]
  rfl

/-- C8: every state reachable from `from_announcement_pair` by sends and
successful feeds has a non-empty `self_msg_history` with strictly increasing
heights; every retained item is unacknowledged (its height is at least the
matched parent height) and the back item carries the maximal height; and a
successful feed prunes exactly the items of height strictly below the matched
parent, so the matched parent's height is still present afterwards. -/
theorem history_invariant_spec :
    (∀ a, Reachable a →
      a.self_msg_history ≠ [] ∧
      (heights a).Chain' (· < ·) ∧
      (∀ x ∈ a.self_msg_history, a.latest_peer_msg.our_parent_height ≤ x.height) ∧
      (∀ b, a.self_msg_history.getLast? = some b →
        ∀ x ∈ a.self_msg_history, x.height ≤ b.height)) ∧
    (∀ a msg res a2, Reachable a → try_feed_incoming_message a msg = some (res, a2) →
      a2.self_msg_history = a.self_msg_history.dropWhile
        (fun m => decide (m.height < a2.latest_peer_msg.our_parent_height)) ∧
      a2.latest_peer_msg.our_parent_height ∈ heights a2) := by
  constructor
  · intro a ha
    obtain ⟨f, n, hn, hh, hp⟩ := reach_inv ha
    have hlen : a.self_msg_history.length = n := by
      have := congrArg List.length hh
      simpa [heights] using this
    refine ⟨?_, ?_, ?_, ?_⟩
    · intro hnil
      rw [hnil] at hlen
      simp at hlen
      omega
    · rw [hh]
      exact (List.pairwise_lt_range' f n).chain'
    · intro x hx
      have hmem : x.height ∈ heights a := List.mem_map_of_mem (·.height) hx
      rw [hh, List.mem_range'_1] at hmem
      omega
    · intro b hb x hx
      have hbh : b.height = f + n - 1 := heights_getLast hn hh hb
      have hmem : x.height ∈ heights a := List.mem_map_of_mem (·.height) hx
      rw [hh, List.mem_range'_1] at hmem
      omega
  · intro a msg res a2 ha hfeed
    obtain ⟨f, n, hn, hh, hp⟩ := reach_inv ha
    obtain ⟨h, hf, hfn, hhist, hpeer, hh2⟩ := feed_char hn hh hfeed
    have hp2 : a2.latest_peer_msg.our_parent_height = h := by rw [hpeer]
    refine ⟨by rw [hp2, hhist], ?_⟩
    rw [hp2, hh2, List.mem_range'_1]
    omega

/-- Witness for C8: the concrete initial session has a non-empty history with
strictly increasing heights. -/
theorem history_invariant_spec_witness :
    (from_announcement_pair ⟨1, 2⟩ ⟨3, 4⟩).self_msg_history ≠ [] ∧
    (heights (from_announcement_pair ⟨1, 2⟩ ⟨3, 4⟩)).Chain' (· < ·) :=
  ⟨(history_invariant_spec.1 _ (Reachable.init ⟨1, 2⟩ ⟨3, 4⟩)).1,
   (history_invariant_spec.1 _ (Reachable.init ⟨1, 2⟩ ⟨3, 4⟩)).2.1⟩

end AgraphonProto

/-! ## Deniable block store (`gossip-storage/rust/src`)

The filesystem is modelled at the granularity the DBS accesses it: the
addressing file as an array of 32-byte slots (every access is slot-aligned),
the data file as a set of written ciphertext regions plus a size. AEAD
ciphertexts are symbolic: a slot value or data region records the key material
and plaintext it was encrypted from, and decryption succeeds exactly under that
key; reads that hit no intact ciphertext (random padding, zero fill beyond the
end of file, misaligned extents) yield bytes that fail authentication, modelled
as a missing region. The Argon2id/HKDF pipeline is external; its derived slot
indices are modelled by an executable deterministic function of the password
(the claims depend only on determinism, not on the concrete values). -/

namespace DBS

/-- `SLOTS_PER_SESSION` (`blob.rs`). -/
def SLOTS_PER_SESSION : Nat := 46

/-- `SLOT_COUNT` (`blob.rs`). -/
def SLOT_COUNT : Nat := 65536

/-- `AEAD_TAG_SIZE` (`block.rs`): the AEAD prepends a 16-byte SIV tag. -/
def AEAD_TAG_SIZE : Nat := 16

/-- `BLOCK_HEADER_SIZE` (`block.rs`): the `used_length` header. -/
def BLOCK_HEADER_SIZE : Nat := 4

/-- `ALLOCATION_ENTRY_SIZE` (`block.rs`). -/
def ALLOCATION_ENTRY_SIZE : Nat := 56

/-- `SlotContent` (`blob.rs`): the root-block pointer stored in a slot. -/
structure SlotContent where
  address : Nat
  length : Nat
  deriving DecidableEq

/-- A 32-byte addressing slot as stored on disk: either the uniform-random fill
from `init_storage` (`id` distinguishes independent RNG draws) or the AES-SIV
ciphertext of a `SlotContent` under the slot key derived from the password and
the slot position (`encrypt_slot`). -/
inductive SlotVal where
  | random (id : Nat)
  | enc (password : String) (position : Nat) (content : SlotContent)
  deriving DecidableEq

/-- Model of `encrypt_slot` (`crypto.rs`): the slot key is derived from
(password, position) with label `addr-key-{position}`. -/
def encrypt_slot (password : String) (position : Nat) (content : SlotContent) : SlotVal :=
  .enc password position content

/-- Model of `decrypt_slot` (`crypto.rs`): under the ideal-AEAD contract the
32-byte slot authenticates exactly under the key it was encrypted with. -/
def decrypt_slot (v : SlotVal) (password : String) (position : Nat) : Option SlotContent :=
  match v with
  | .random _ => none
  | .enc pw2 pos2 c => if pw2 = password ∧ pos2 = position then some c else none

/-- An AEAD ciphertext region in the data file: the root block (encrypted with
the session AEAD key directly) or a data block (encrypted with the per-block key
derived from the session key and the 32-byte `block_id`). -/
inductive RegionVal where
  | root_ct (password : String) (plaintext : List Nat)
  | block_ct (password : String) (block_id : Nat) (plaintext : List Nat)
  deriving DecidableEq

/-- On-disk size of an encrypted region: plaintext plus the 16-byte SIV tag. -/
def RegionVal.outer_len : RegionVal → Nat
  | .root_ct _ pt => pt.length + AEAD_TAG_SIZE
  | .block_ct _ _ pt => pt.length + AEAD_TAG_SIZE

/-- The two-file filesystem state (`fs.rs` contract, instrumented with the
addressing-file write counter the tests use). `slot_writes` records addressing
writes, most recent first; a slot never written holds the `init_storage` random
fill. `data_regions` records the ciphertext regions written to the data file;
random padding bytes are unstructured and only contribute to `data_size`. -/
structure Fsm where
  slot_writes : List (Nat × SlotVal)
  data_regions : List (Nat × RegionVal)
  data_size : Nat
  addr_writes : Nat
  deriving DecidableEq

/-- Addressing-file read of slot `i` (offset `32*i`, 32 bytes). -/
def Fsm.get_slot (fs : Fsm) (i : Nat) : SlotVal :=
  ((fs.slot_writes.find? (fun e => e.1 == i)).map (·.2)).getD (.random i)

/-- Addressing-file write of slot `i` (one `write_bytes` call). -/
def Fsm.write_slot (fs : Fsm) (i : Nat) (v : SlotVal) : Fsm :=
  { fs with slot_writes := (i, v) :: fs.slot_writes, addr_writes := fs.addr_writes + 1 }

/-- Data-file read of the extent `[addr, addr+len)`: yields the most recently
written ciphertext region at exactly that placement; any other read returns
unstructured bytes that cannot authenticate, modelled as `none`. -/
def Fsm.read_region (fs : Fsm) (addr len : Nat) : Option RegionVal :=
  (fs.data_regions.find? (fun e => e.1 == addr && e.2.outer_len == len)).map (·.2)

/-- Data-file write of a ciphertext region (extends the file if needed). -/
def Fsm.write_region (fs : Fsm) (addr : Nat) (v : RegionVal) : Fsm :=
  { fs with data_regions := (addr, v) :: fs.data_regions,
            data_size := max fs.data_size (addr + v.outer_len) }

/-- Model of `write_random_padding` (`blob.rs`): streams RNG chunks to
`[offset, offset+size)`; the bytes are unstructured, so only the size effect is
recorded. -/
def Fsm.write_padding (fs : Fsm) (offset size : Nat) : Fsm :=
  { fs with data_size := max fs.data_size (offset + size) }

/-- State of the two files after `init_storage` on fresh storage: the 2 MiB
addressing blob is filled with fresh random bytes (slot `i` holds `random i`)
and the data file is empty. -/
def init_storage : Fsm := ⟨[], [], 0, 0⟩

/-- Deterministic model of the Argon2id/HKDF slot-index derivation
(`SessionKeys::derive`, labels `slot-{position}`): an executable toy hash; the
claims depend only on the derivation being a function of (password, position).
Indices may collide, as the source notes. -/
def password_hash (password : String) : Nat :=
  password.toList.foldl (fun a c => (a * 131 + c.toNat) % 65536) 7

/-- The slot index used by position `position` of a session. -/
def slot_index (password : String) (position : Nat) : Nat :=
  (password_hash password + position * 40503) % 65536

/-- Model of `decrypt_root_block` (`crypto.rs`) applied to the bytes read from
the data file: authenticates exactly for the root ciphertext written under the
same session AEAD key (derived from the password). -/
def decrypt_root_block : Option RegionVal → String → Option (List Nat)
  | some (.root_ct pw2 pt), password => if pw2 = password then some pt else none
  | _, _ => none

/-- Big-endian serialization of `n` (mod `256^width`) into `width` bytes. -/
def natToBytesBE : Nat → Nat → List Nat
  | 0, _ => []
  | w + 1, n => natToBytesBE w (n / 256) ++ [n % 256]

/-- Big-endian deserialization. -/
def beBytesToNat (bs : List Nat) : Nat :=
  bs.foldl (fun a b => a * 256 + b) 0

/-- `AllocationEntry` (`block.rs`): logical-to-physical mapping of one block.
The random 32-byte `block_id` is modelled as a natural number. -/
structure AllocationEntry where
  inner_data_offset : Nat
  inner_length : Nat
  address : Nat
  outer_length : Nat
  block_id : Nat
  deriving DecidableEq

/-- `AllocationEntry::to_bytes`: 56 bytes, big-endian fields. -/
def AllocationEntry.to_bytes (e : AllocationEntry) : List Nat :=
  natToBytesBE 8 e.inner_data_offset ++ natToBytesBE 4 e.inner_length ++
    natToBytesBE 8 e.address ++ natToBytesBE 4 e.outer_length ++ natToBytesBE 32 e.block_id

/-- `AllocationEntry::from_bytes`. -/
def AllocationEntry.from_bytes (bs : List Nat) : Option AllocationEntry :=
  if bs.length < ALLOCATION_ENTRY_SIZE then none
  else
    some ⟨beBytesToNat (bs.take 8), beBytesToNat ((bs.drop 8).take 4),
      beBytesToNat ((bs.drop 12).take 8), beBytesToNat ((bs.drop 20).take 4),
      beBytesToNat ((bs.drop 24).take 32)⟩

/-- `AllocationEntry::contains_offset`. -/
def AllocationEntry.contains_offset (e : AllocationEntry) (logical_offset : Nat) : Bool :=
  decide (e.inner_data_offset ≤ logical_offset) &&
    decide (logical_offset < e.inner_data_offset + e.inner_length)

/-- `AllocationTable::find_block`: linear scan for the first entry containing
the offset. -/
def find_block (t : List AllocationEntry) (logical_offset : Nat) : Option AllocationEntry :=
  t.find? (fun e => e.contains_offset logical_offset)

/-- `AllocationTable::find_by_id`. -/
def find_by_id (t : List AllocationEntry) (block_id : Nat) : Option AllocationEntry :=
  t.find? (fun e => e.block_id == block_id)

/-- `AllocationTable::next_logical_offset`: maximal `end_offset`, or 0. -/
def next_logical_offset (t : List AllocationEntry) : Nat :=
  (t.map (fun e => e.inner_data_offset + e.inner_length)).foldr max 0

/-- `AllocationTable::to_bytes`: `u32 BE count` followed by the entries. -/
def table_to_bytes (t : List AllocationEntry) : List Nat :=
  natToBytesBE 4 t.length ++ (t.map AllocationEntry.to_bytes).flatten

/-- The entry-parsing loop of `AllocationTable::from_bytes`. -/
def parse_entries : Nat → List Nat → Option (List AllocationEntry)
  | 0, _ => some []
  | k + 1, bs =>
    match AllocationEntry.from_bytes bs with
    | none => none
    | some e => (parse_entries k (bs.drop ALLOCATION_ENTRY_SIZE)).map (e :: ·)

/-- `AllocationTable::from_bytes`. -/
def table_from_bytes (bs : List Nat) : Option (List AllocationEntry) :=
  if bs.length < 4 then none
  else
    let num := beBytesToNat (bs.take 4)
    if bs.length < 4 + num * ALLOCATION_ENTRY_SIZE then none
    else parse_entries num (bs.drop 4)

/-- `DecryptedBlock` (`block.rs`): a cached plaintext block. -/
structure DecryptedBlock where
  entry : AllocationEntry
  data : List Nat
  used_length : Nat
  dirty : Bool
  deriving DecidableEq

/-- `DecryptedBlock::from_plaintext`: parse `used_length` header, validate it
against the capacity, keep the data portion. -/
def DecryptedBlock.from_plaintext (entry : AllocationEntry) (pt : List Nat) :
    Option DecryptedBlock :=
  if pt.length < BLOCK_HEADER_SIZE then none
  else
    let used := beBytesToNat (pt.take 4)
    if pt.length - BLOCK_HEADER_SIZE < used then none
    else some ⟨entry, pt.drop BLOCK_HEADER_SIZE, used, false⟩

/-- `DecryptedBlock::to_plaintext`: header plus the full-capacity data buffer
(the random-fill branch of the source is unreachable because `data` already has
full capacity). -/
def DecryptedBlock.to_plaintext (b : DecryptedBlock) : List Nat :=
  natToBytesBE 4 b.used_length ++ b.data

/-- `DecryptedBlock::read_or_zero`: a zero vector of length `len` whose prefix
is overwritten with the used bytes at `offset_in_block`. -/
def DecryptedBlock.read_or_zero (b : DecryptedBlock) (offset_in_block len : Nat) : List Nat :=
  if offset_in_block < b.used_length then
    let available := min (b.used_length - offset_in_block) len
    let copied := (b.data.drop offset_in_block).take available
    copied ++ List.replicate (len - copied.length) 0
  else
    List.replicate len 0

/-- `BlockError` (`block_manager.rs`). -/
inductive BlockError where
  | blockNotFound
  | decryptionFailed
  | invalidFormat
  | capacityExceeded
  | io
  deriving DecidableEq

/-- `BlockManager` (`block_manager.rs`): the password stands for the session
AEAD key it derives; the cache maps `block_id` to the decrypted block. -/
structure BlockManager where
  password : String
  allocation_table : List AllocationEntry
  root_address : Nat
  root_outer_length : Nat
  cache : List (Nat × DecryptedBlock)
  allocation_table_dirty : Bool
  logical_size : Nat
  deriving DecidableEq

/-- Cache lookup by `block_id` (`self.cache.get(&block_id)`). -/
def cache_lookup (cache : List (Nat × DecryptedBlock)) (block_id : Nat) :
    Option DecryptedBlock :=
  (cache.find? (fun e => e.1 == block_id)).map (·.2)

/-- Shallow embedding of `BlockManager::new`: write the initial empty root
block at `root_address`. -/
def BlockManager.new (fs : Fsm) (password : String) (root_address : Nat) :
    BlockManager × Fsm :=
  let root_plaintext := table_to_bytes []
  let root_outer_length := root_plaintext.length + AEAD_TAG_SIZE
  let fs2 := fs.write_region root_address (.root_ct password root_plaintext)
  (⟨password, [], root_address, root_outer_length, [], false, 0⟩, fs2)

/-- Shallow embedding of `BlockManager::load`: a zero `root_outer_length`
denotes a fresh session with no data, handled without touching the disk;
otherwise read and decrypt the root block and parse the allocation table.
Under the filesystem contract reads are never short (they zero-pad), so the
`Io` branch of the source is unreachable and a read that hits no intact
ciphertext fails authentication. -/
def BlockManager.load (fs : Fsm) (password : String)
    (root_address root_outer_length : Nat) : Except BlockError BlockManager :=
  if root_outer_length = 0 then
    .ok ⟨password, [], root_address, 0, [], false, 0⟩
  else
    match fs.read_region root_address root_outer_length with
    | none => .error .decryptionFailed
    | some (.block_ct _ _ _) => .error .decryptionFailed
    | some (.root_ct pw2 pt) =>
      if pw2 = password then
        match table_from_bytes pt with
        | none => .error .invalidFormat
        | some t =>
          .ok ⟨password, t, root_address, root_outer_length, [], false,
            next_logical_offset t⟩
      else .error .decryptionFailed

/-- Shallow embedding of `BlockManager::ensure_block_cached`: on a cache miss,
find the entry, read the region, derive the per-block key and decrypt, parse,
insert. -/
def BlockManager.ensure_block_cached (bm : BlockManager) (fs : Fsm) (block_id : Nat) :
    Except BlockError BlockManager :=
  if (cache_lookup bm.cache block_id).isSome then .ok bm
  else
    match find_by_id bm.allocation_table block_id with
    | none => .error .blockNotFound
    | some entry =>
      match fs.read_region entry.address entry.outer_length with
      | some (.block_ct pw2 bid2 pt) =>
        if pw2 = bm.password ∧ bid2 = block_id then
          match DecryptedBlock.from_plaintext entry pt with
          | none => .error .invalidFormat
          | some blk => .ok { bm with cache := (block_id, blk) :: bm.cache }
        else .error .decryptionFailed
      | _ => .error .decryptionFailed

/-- The read loop of `BlockManager::read`: walk the allocation table from
`current_offset`, copying used bytes, zero-filling beyond `used_length` within
a block's capacity, advancing in 4096-byte zero-fill steps over unmapped
ranges, and stopping early (`break`) past the end of the last block. -/
def BlockManager.read_loop (fs : Fsm) (bm : BlockManager)
    (current_offset remaining : Nat) : Except BlockError (List Nat × BlockManager) :=
  if h0 : remaining = 0 then .ok ([], bm)
  else
    match find_block bm.allocation_table current_offset with
    | some entry =>
      match bm.ensure_block_cached fs entry.block_id with
      | .error e => .error e
      | .ok bm1 =>
        match cache_lookup bm1.cache entry.block_id with
        | none => .error .blockNotFound
        | some block =>
          let offset_in_block := current_offset - entry.inner_data_offset
          let available := block.used_length - offset_in_block
          let to_read := min remaining available
          if h1 : 0 < to_read then
            match BlockManager.read_loop fs bm1 (current_offset + to_read)
                (remaining - to_read) with
            | .error e => .error e
            | .ok (rest, bm2) =>
              .ok (block.read_or_zero offset_in_block to_read ++ rest, bm2)
          else
            let capacity_remaining := entry.inner_length - offset_in_block
            let to_fill := min remaining capacity_remaining
            if h2 : 0 < to_fill then
              match BlockManager.read_loop fs bm1 (current_offset + to_fill)
                  (remaining - to_fill) with
              | .error e => .error e
              | .ok (rest, bm2) => .ok (List.replicate to_fill 0 ++ rest, bm2)
            else .ok ([], bm1)
    | none =>
      let to_fill := min remaining 4096
      match BlockManager.read_loop fs bm (current_offset + to_fill)
          (remaining - to_fill) with
      | .error e => .error e
      | .ok (rest, bm2) => .ok (List.replicate to_fill 0 ++ rest, bm2)
  termination_by remaining
  decreasing_by all_goals omega

/-- Shallow embedding of `BlockManager::read`: run the loop, then fill any
remaining bytes with zeros so the result has exactly `len` bytes. -/
def BlockManager.read (bm : BlockManager) (fs : Fsm) (logical_offset len : Nat) :
    Except BlockError (List Nat × BlockManager) :=
  match BlockManager.read_loop fs bm logical_offset len with
  | .error e => .error e
  | .ok (res, bm2) => .ok (res ++ List.replicate (len - res.length) 0, bm2)

end DBS

namespace DBS

/-- Shallow embedding of `BlockManager::write_root_block`: if the new root
ciphertext does not fit in place, append fresh Pareto padding (`pareto_padding`
stands for the sampled size) and relocate; otherwise overwrite in place. -/
def BlockManager.write_root_block (bm : BlockManager) (fs : Fsm) (pareto_padding : Nat) :
    BlockManager × Fsm :=
  let table_bytes := table_to_bytes bm.allocation_table
  let new_length := table_bytes.length + AEAD_TAG_SIZE
  if bm.root_outer_length < new_length ∨ bm.root_outer_length = 0 then
    let current_disk_size := fs.data_size
    let fs1 := fs.write_padding current_disk_size pareto_padding
    let new_root_address := current_disk_size + pareto_padding
    let fs2 := fs1.write_region new_root_address (.root_ct bm.password table_bytes)
    ({ bm with root_address := new_root_address, root_outer_length := new_length }, fs2)
  else
    ({ bm with root_outer_length := new_length },
     fs.write_region bm.root_address (.root_ct bm.password table_bytes))

/-- Shallow embedding of `BlockManager::flush`: re-encrypt every dirty cached
block at its same address, update the root block only if the allocation table
changed, then clear the dirty flags. -/
def BlockManager.flush (bm : BlockManager) (fs : Fsm) (pareto_padding : Nat) :
    BlockManager × Fsm :=
  let fs1 := bm.cache.foldl
    (fun f e =>
      if e.2.dirty then
        f.write_region e.2.entry.address (.block_ct bm.password e.1 e.2.to_plaintext)
      else f) fs
  let step :=
    if bm.allocation_table_dirty then
      let r := BlockManager.write_root_block bm fs1 pareto_padding
      ({ r.1 with allocation_table_dirty := false }, r.2)
    else (bm, fs1)
  ({ step.1 with cache := step.1.cache.map (fun e => (e.1, { e.2 with dirty := false })) },
   step.2)

/-- `SessionError` (`session.rs`). -/
inductive SessionError where
  | sessionLocked
  | alreadyUnlocked
  | invalidPassword
  | crypto
  | block (e : BlockError)
  | storage
  | corruptedData
  deriving DecidableEq

/-- `Session` (`session.rs`): the password stands for the derived
`SessionKeys`. -/
structure Session where
  password : String
  block_manager : BlockManager
  last_flushed_root_address : Nat
  last_flushed_root_length : Nat
  deriving DecidableEq

/-- Shallow embedding of `SessionManager::create_session` from the `Locked`
state: write Pareto padding (`pareto_padding` stands for the sampled size),
create the block manager with its initial root block, then encrypt the root
pointer into all 46 derived slots. Key derivation and slot encryption cannot
fail in the model, so the fallible branches of the source are elided. -/
def create_session (fs : Fsm) (password : String) (pareto_padding : Nat) :
    Session × Fsm :=
  let current_size := fs.data_size
  let fs1 := fs.write_padding current_size pareto_padding
  let root_address := current_size + pareto_padding
  let r := BlockManager.new fs1 password root_address
  let root_length := r.1.root_outer_length
  let content : SlotContent := ⟨root_address, root_length⟩
  let fs3 := (List.range SLOTS_PER_SESSION).foldl
    (fun f position =>
      f.write_slot (slot_index password position) (encrypt_slot password position content))
    r.2
  (⟨password, r.1, root_address, root_length⟩, fs3)

/-- `UnlockResult` (`crypto.rs`), instrumented with the number of slot reads
and slot AEAD decryption attempts performed by the scan. -/
structure UnlockResult where
  valid_slots : List (Nat × SlotContent)
  slot_decrypt_failed : List Nat
  slot_reads : Nat
  decrypt_attempts : Nat
  deriving DecidableEq

/-- Shallow embedding of `unlock_with_keys` (`crypto.rs`): always scans all 46
positions, reading the slot at each derived index and attempting one AEAD
decryption per position, with no early exit. -/
def unlock_with_keys (password : String) (get_slot : Nat → SlotVal) : UnlockResult :=
  (List.range SLOTS_PER_SESSION).foldl
    (fun acc position =>
      let encrypted := get_slot (slot_index password position)
      let acc1 := { acc with slot_reads := acc.slot_reads + 1,
                             decrypt_attempts := acc.decrypt_attempts + 1 }
      match decrypt_slot encrypted password position with
      | some content => { acc1 with valid_slots := acc1.valid_slots ++ [(position, content)] }
      | none =>
        { acc1 with slot_decrypt_failed := acc1.slot_decrypt_failed ++ [position] })
    ⟨[], [], 0, 0⟩

/-- The candidate-verification fold of `SessionManager::unlock_session` (lines
264-299): bounds check each AEAD-valid slot; decrypt the root block only for
the first bounds-passing candidate; compare every later candidate against the
verified pointer; collect every failure as corrupted. The fold continues
through all candidates (timing-safe, no early exit). -/
def verify_candidates (fs : Fsm) (password : String) (data_blob_size : Nat)
    (candidates : List (Nat × SlotContent)) (init_corrupted : List Nat) :
    Option (Nat × Nat) × List Nat :=
  candidates.foldl
    (fun acc pc =>
      if data_blob_size < pc.2.address + pc.2.length then
        (acc.1, acc.2 ++ [pc.1])
      else
        match acc.1 with
        | some vr =>
          if pc.2.address ≠ vr.1 ∨ pc.2.length ≠ vr.2 then
            (acc.1, acc.2 ++ [pc.1])
          else acc
        | none =>
          match decrypt_root_block (fs.read_region pc.2.address pc.2.length) password with
          | some _ => (some (pc.2.address, pc.2.length), acc.2)
          | none => (acc.1, acc.2 ++ [pc.1]))
    (none, init_corrupted)

/-- The slot-scanning phase of `unlock_session` over the addressing file. -/
def unlock_scan (fs : Fsm) (password : String) : UnlockResult :=
  unlock_with_keys password fs.get_slot

/-- The verification phase of `unlock_session`: the verified root pointer (if
any) and the final corrupted-position list. -/
def unlock_verified (fs : Fsm) (password : String) : Option (Nat × Nat) × List Nat :=
  verify_candidates fs password fs.data_size (unlock_scan fs password).valid_slots
    (unlock_scan fs password).slot_decrypt_failed

/-- Shallow embedding of `SessionManager::unlock_session` from the `Locked`
state: scan all 46 slots, verify candidates, load the block manager from the
verified pointer, then self-heal by rewriting only the corrupted slots. -/
def unlock_session (fs : Fsm) (password : String) : Except SessionError (Session × Fsm) :=
  let unlock := unlock_scan fs password
  if unlock.valid_slots = [] then .error .invalidPassword
  else
    let v := unlock_verified fs password
    match v.1 with
    | none => .error .invalidPassword
    | some vr =>
      match BlockManager.load fs password vr.1 vr.2 with
      | .error e => .error (.block e)
      | .ok bm =>
        let current_address := bm.root_address
        let current_length := bm.root_outer_length
        let fs2 :=
          if v.2 = [] then fs
          else
            v.2.foldl
              (fun f position =>
                f.write_slot (slot_index password position)
                  (encrypt_slot password position ⟨current_address, current_length⟩)) fs
        .ok (⟨password, bm, current_address, current_length⟩, fs2)

/-- Shallow embedding of `SessionManager::flush_data`: flush the block manager,
then rewrite all 46 slots only if the root block moved or changed size since
the last flush. -/
def flush_data (s : Session) (fs : Fsm) (pareto_padding : Nat) : Session × Fsm :=
  let r := s.block_manager.flush fs pareto_padding
  let root_address := r.1.root_address
  let root_length := r.1.root_outer_length
  if root_address ≠ s.last_flushed_root_address ∨ root_length ≠ s.last_flushed_root_length
  then
    let fs2 := (List.range SLOTS_PER_SESSION).foldl
      (fun f position =>
        f.write_slot (slot_index s.password position)
          (encrypt_slot s.password position ⟨root_address, root_length⟩)) r.2
    (⟨s.password, r.1, root_address, root_length⟩, fs2)
  else
    (⟨s.password, r.1, s.last_flushed_root_address, s.last_flushed_root_length⟩, r.2)

/-- Shallow embedding of `SessionManager::lock`: flush, rewrite the 46 slots
only if the root block changed since the last flush, then zeroize (the session
is dropped, so only the filesystem state remains). -/
def session_lock (s : Session) (fs : Fsm) (pareto_padding : Nat) : Fsm :=
  let r := s.block_manager.flush fs pareto_padding
  let root_address := r.1.root_address
  let root_length := r.1.root_outer_length
  if root_address ≠ s.last_flushed_root_address ∨ root_length ≠ s.last_flushed_root_length
  then
    (List.range SLOTS_PER_SESSION).foldl
      (fun f position =>
        f.write_slot (slot_index s.password position)
          (encrypt_slot s.password position ⟨root_address, root_length⟩)) r.2
  else r.2

end DBS

namespace DBS

theorem write_slot_get_self (fs : Fsm) (i : Nat) (v : SlotVal) :
    (fs.write_slot i v).get_slot i = v := by
  simp [Fsm.write_slot, Fsm.get_slot, List.find?_cons_of_pos]

theorem write_slot_get_ne (fs : Fsm) (i k : Nat) (v : SlotVal) (h : i ≠ k) :
    (fs.write_slot i v).get_slot k = fs.get_slot k := by
  simp only [Fsm.write_slot, Fsm.get_slot]
  rw [List.find?_cons_of_neg]
  simpa using h

theorem fold_write_slots_get (password : String) (c : SlotContent) (l : List Nat)
    (fs : Fsm) (k : Nat) :
    (l.foldl
      (fun f position =>
        f.write_slot (slot_index password position) (encrypt_slot password position c))
      fs).get_slot k =
    match l.reverse.find? (fun position => slot_index password position == k) with
    | some position => encrypt_slot password position c
    | none => fs.get_slot k := by
  induction l generalizing fs with
  | nil => simp
  | cons hd tl ih =>
    rw [List.foldl_cons, ih, List.reverse_cons, List.find?_append]
    cases htl : tl.reverse.find? (fun position => slot_index password position == k) with
    | some position => simp [htl]
    | none =>
      simp only [htl, Option.none_or]
      by_cases hk : slot_index password hd = k
      · rw [List.find?_cons_of_pos _ (by simpa using hk)]
        subst hk
        simp [write_slot_get_self]
      · rw [List.find?_cons_of_neg _ (by simpa using hk)]
        simp [write_slot_get_ne _ _ _ _ hk]

theorem fold_write_slots_data (password : String) (c : SlotContent) (l : List Nat)
    (fs : Fsm) :
    ((l.foldl
      (fun f position =>
        f.write_slot (slot_index password position) (encrypt_slot password position c))
      fs).data_regions,
     (l.foldl
      (fun f position =>
        f.write_slot (slot_index password position) (encrypt_slot password position c))
      fs).data_size) = (fs.data_regions, fs.data_size) := by
  induction l generalizing fs with
  | nil => rfl
  | cons hd tl ih => rw [List.foldl_cons, ih]; rfl

theorem fold_write_slots_addr_writes (password : String) (c : SlotContent) (l : List Nat)
    (fs : Fsm) :
    (l.foldl
      (fun f position =>
        f.write_slot (slot_index password position) (encrypt_slot password position c))
      fs).addr_writes = fs.addr_writes + l.length := by
  induction l generalizing fs with
  | nil => simp
  | cons hd tl ih =>
    rw [List.foldl_cons, ih]
    simp [Fsm.write_slot]
    omega

theorem fold_write_slots_get_notin (password : String) (c : SlotContent) (l : List Nat)
    (fs : Fsm) (k : Nat) (h : k ∉ l.map (slot_index password)) :
    (l.foldl
      (fun f position =>
        f.write_slot (slot_index password position) (encrypt_slot password position c))
      fs).get_slot k = fs.get_slot k := by
  induction l generalizing fs with
  | nil => rfl
  | cons hd tl ih =>
    simp only [List.map_cons, List.mem_cons, not_or] at h
    rw [List.foldl_cons, ih _ h.2, write_slot_get_ne _ _ _ _ (fun he => h.1 he.symm)]

theorem unlock_fold_counts (password : String) (get_slot : Nat → SlotVal)
    (l : List Nat) (acc : UnlockResult) :
    ((l.foldl
      (fun acc position =>
        let encrypted := get_slot (slot_index password position)
        let acc1 := { acc with slot_reads := acc.slot_reads + 1,
                               decrypt_attempts := acc.decrypt_attempts + 1 }
        match decrypt_slot encrypted password position with
        | some content =>
          { acc1 with valid_slots := acc1.valid_slots ++ [(position, content)] }
        | none =>
          { acc1 with slot_decrypt_failed := acc1.slot_decrypt_failed ++ [position] })
      acc).slot_reads,
     (l.foldl
      (fun acc position =>
        let encrypted := get_slot (slot_index password position)
        let acc1 := { acc with slot_reads := acc.slot_reads + 1,
                               decrypt_attempts := acc.decrypt_attempts + 1 }
        match decrypt_slot encrypted password position with
        | some content =>
          { acc1 with valid_slots := acc1.valid_slots ++ [(position, content)] }
        | none =>
          { acc1 with slot_decrypt_failed := acc1.slot_decrypt_failed ++ [position] })
      acc).decrypt_attempts) = (acc.slot_reads + l.length, acc.decrypt_attempts + l.length) := by
  induction l generalizing acc with
  | nil => simp
  | cons hd tl ih =>
    rw [List.foldl_cons]
    cases hdec : decrypt_slot (get_slot (slot_index password hd)) password hd with
    | some content =>
      simp only [hdec]
      rw [ih]
      simp only [List.length_cons, Prod.mk.injEq]
      omega
    | none =>
      simp only [hdec]
      rw [ih]
      simp only [List.length_cons, Prod.mk.injEq]
      omega

end DBS

namespace DBS

/-- C10: `BlockManager::load` called with `root_outer_length = 0` succeeds on
every filesystem state, password and root address - the result is independent
of the file contents, so nothing is read or decrypted, and in particular the
call never returns `DecryptionFailed` - yielding a manager with an empty
allocation table, logical size 0 and `root_outer_length` 0. -/
theorem load_zero_root_length_spec (fs : Fsm) (password : String) (root_address : Nat) :
    BlockManager.load fs password root_address 0 =
      .ok ⟨password, [], root_address, 0, [], false, 0⟩ := by
  rfl

/-- C3: for every password and every addressing-file content (any `get_slot`
function), the slot-scanning phase of unlock performs exactly 46 slot reads and
exactly 46 slot AEAD decryption attempts, with no early exit - in particular
the counts are independent of how many slots decrypt. -/
theorem unlock_with_keys_constant_scan_spec (password : String) (get_slot : Nat → SlotVal) :
    ((unlock_with_keys password get_slot).slot_reads = SLOTS_PER_SESSION ∧
      (unlock_with_keys password get_slot).decrypt_attempts = SLOTS_PER_SESSION) ∧
    (∀ fs : Fsm, (unlock_scan fs password).slot_reads = SLOTS_PER_SESSION ∧
      (unlock_scan fs password).decrypt_attempts = SLOTS_PER_SESSION) := by
  have key : ∀ g : Nat → SlotVal, (unlock_with_keys password g).slot_reads = SLOTS_PER_SESSION ∧
      (unlock_with_keys password g).decrypt_attempts = SLOTS_PER_SESSION := by
    intro g
    have h := unlock_fold_counts password g (List.range SLOTS_PER_SESSION) ⟨[], [], 0, 0⟩
    rw [Prod.mk.injEq] at h
    constructor
    · rw [unlock_with_keys, h.1]
      simp
    · rw [unlock_with_keys, h.2]
      simp
  exact ⟨key get_slot, fun fs => key fs.get_slot⟩

theorem unlock_fold_valid_slots (password : String) (get_slot : Nat → SlotVal)
    (l : List Nat) (acc : UnlockResult) :
    (l.foldl
      (fun acc position =>
        let encrypted := get_slot (slot_index password position)
        let acc1 := { acc with slot_reads := acc.slot_reads + 1,
                               decrypt_attempts := acc.decrypt_attempts + 1 }
        match decrypt_slot encrypted password position with
        | some content =>
          { acc1 with valid_slots := acc1.valid_slots ++ [(position, content)] }
        | none =>
          { acc1 with slot_decrypt_failed := acc1.slot_decrypt_failed ++ [position] })
      acc).valid_slots =
    acc.valid_slots ++ l.filterMap
      (fun position =>
        (decrypt_slot (get_slot (slot_index password position)) password position).map
          (fun c => (position, c))) := by
  induction l generalizing acc with
  | nil => simp
  | cons hd tl ih =>
    rw [List.foldl_cons, List.filterMap_cons]
    cases hdec : decrypt_slot (get_slot (slot_index password hd)) password hd with
    | some content =>
      simp only [hdec]
      rw [ih]
      simp
    | none =>
      simp only [hdec]
      rw [ih]
      simp

theorem unlock_with_keys_valid_slots (password : String) (get_slot : Nat → SlotVal) :
    (unlock_with_keys password get_slot).valid_slots =
      (List.range SLOTS_PER_SESSION).filterMap
        (fun position =>
          (decrypt_slot (get_slot (slot_index password position)) password position).map
            (fun c => (position, c))) := by
  rw [unlock_with_keys, unlock_fold_valid_slots]
  rfl

end DBS

namespace DBS

theorem verify_fold_keep (fs : Fsm) (password : String) (ds : Nat) (vr : Nat × Nat)
    (hb : vr.1 + vr.2 ≤ ds) (l : List (Nat × SlotContent)) (init : List Nat)
    (hall : ∀ x ∈ l, x.2.address = vr.1 ∧ x.2.length = vr.2) :
    (l.foldl
      (fun acc pc =>
        if ds < pc.2.address + pc.2.length then
          (acc.1, acc.2 ++ [pc.1])
        else
          match acc.1 with
          | some vr2 =>
            if pc.2.address ≠ vr2.1 ∨ pc.2.length ≠ vr2.2 then
              (acc.1, acc.2 ++ [pc.1])
            else acc
          | none =>
            match decrypt_root_block (fs.read_region pc.2.address pc.2.length) password with
            | some _ => (some (pc.2.address, pc.2.length), acc.2)
            | none => (acc.1, acc.2 ++ [pc.1]))
      (some vr, init)) = (some vr, init) := by
  induction l generalizing init with
  | nil => rfl
  | cons hd tl ih =>
    rw [List.foldl_cons]
    have h1 := hall hd (by simp)
    rw [if_neg (by omega)]
    simp only []
    rw [if_neg (by simp [h1.1, h1.2])]
    exact ih init (fun x hx => hall x (by simp [hx]))

theorem verify_candidates_all_same (fs : Fsm) (password : String) (ds : Nat)
    (c : SlotContent) (hb : c.address + c.length ≤ ds)
    (hroot : (decrypt_root_block (fs.read_region c.address c.length) password).isSome)
    (l : List (Nat × SlotContent)) (init : List Nat)
    (hall : ∀ x ∈ l, x.2 = c) (hne : l ≠ []) :
    (verify_candidates fs password ds l init).1 = some (c.address, c.length) := by
  cases l with
  | nil => exact absurd rfl hne
  | cons hd tl =>
    have hhd : hd.2 = c := hall hd (by simp)
    rw [verify_candidates, List.foldl_cons]
    rw [if_neg (by rw [hhd]; omega)]
    simp only []
    obtain ⟨pt, hpt⟩ := Option.isSome_iff_exists.mp hroot
    rw [hhd] at *
    rw [hpt]
    have hkeep := verify_fold_keep fs password ds (c.address, c.length)
      (by simpa using hb) tl init (fun x hx => by rw [hall x (by simp [hx])]; exact ⟨rfl, rfl⟩)
    rw [hkeep]

/-- C4: whenever `unlock_session` succeeds, the self-healing phase performs
exactly `k` addressing-file writes, where `k` is the number of candidates the
verification phase detected as corrupted (failed slot AEAD decryption, failed
bounds check, failed root decryption, or root-pointer mismatch); every
addressing slot outside the healed indices is left unchanged, and when `k = 0`
the filesystem state is untouched (zero addressing writes). -/
theorem unlock_self_heal_spec (fs : Fsm) (password : String) (s : Session) (fs2 : Fsm)
    (h : unlock_session fs password = .ok (s, fs2)) :
    fs2.addr_writes = fs.addr_writes + (unlock_verified fs password).2.length ∧
    (∀ k, k ∉ (unlock_verified fs password).2.map (slot_index password) →
      fs2.get_slot k = fs.get_slot k) ∧
    ((unlock_verified fs password).2 = [] → fs2 = fs) := by
  rw [unlock_session] at h
  by_cases hv : (unlock_scan fs password).valid_slots = []
  · simp [hv] at h
  · simp only [hv, if_false] at h
    cases hv1 : (unlock_verified fs password).1 with
    | none => rw [hv1] at h; simp at h
    | some vr =>
      rw [hv1] at h
      simp only [] at h
      cases hload : BlockManager.load fs password vr.1 vr.2 with
      | error e => rw [hload] at h; simp at h
      | ok bm =>
        rw [hload] at h
        simp only [Except.ok.injEq, Prod.mk.injEq] at h
        have hfs2 : fs2 =
            (if (unlock_verified fs password).2 = [] then fs
             else (unlock_verified fs password).2.foldl
               (fun f position =>
                 f.write_slot (slot_index password position)
                   (encrypt_slot password position
                     ⟨bm.root_address, bm.root_outer_length⟩)) fs) := h.2.symm
        by_cases hcor : (unlock_verified fs password).2 = []
        · rw [hcor] at hfs2
          simp only [if_pos rfl] at hfs2
          subst hfs2
          exact ⟨by rw [hcor]; simp, fun k _ => rfl, fun _ => rfl⟩
        · rw [if_neg hcor] at hfs2
          subst hfs2
          refine ⟨?_, ?_, fun hc => absurd hc hcor⟩
          · exact fold_write_slots_addr_writes password _ _ fs
          · intro k hk
            exact fold_write_slots_get_notin password _ _ fs k hk

end DBS

namespace DBS

/-- Concrete filesystem state used to exercise the DBS theorems on closed
inputs: fresh storage after `create_session` with password `pw` and a Pareto
padding of 5 bytes. -/
def exampleCreatedFs : Fsm := (create_session init_storage "pw" 5).2

/-- Witness for C4: on the concrete created state, unlocking succeeds and the
number of addressing writes equals the number of corrupted candidates. -/
theorem unlock_self_heal_spec_witness :
    ∃ s fs2, unlock_session exampleCreatedFs "pw" = .ok (s, fs2) ∧
      fs2.addr_writes = exampleCreatedFs.addr_writes +
        (unlock_verified exampleCreatedFs "pw").2.length :=
  ⟨_, _, rfl, (unlock_self_heal_spec exampleCreatedFs "pw" _ _ rfl).1⟩

end DBS

namespace DBS

theorem create_session_eq (p : String) (pad : Nat) :
    create_session init_storage p pad =
      (⟨p, ⟨p, [], pad, 20, [], false, 0⟩, pad, 20⟩,
       (List.range SLOTS_PER_SESSION).foldl
         (fun f position =>
           f.write_slot (slot_index p position) (encrypt_slot p position ⟨pad, 20⟩))
         ⟨[], [(pad, .root_ct p (table_to_bytes []))], pad + 20, 0⟩) := by
  have hlen : (table_to_bytes ([] : List AllocationEntry)).length = 4 := rfl
  have houter : (RegionVal.root_ct p (table_to_bytes [])).outer_len = 20 := by
    simp [RegionVal.outer_len, hlen, AEAD_TAG_SIZE]
  have hmax : max pad (pad + 20) = pad + 20 := Nat.max_eq_right (by omega)
  rw [create_session]
  simp only [init_storage, Fsm.write_padding, Fsm.write_region, BlockManager.new,
    houter, hlen, AEAD_TAG_SIZE, Nat.zero_add, Nat.zero_max, hmax]

theorem bm_flush_noop (bm : BlockManager) (fs : Fsm) (padX : Nat)
    (hc : bm.cache = []) (hd : bm.allocation_table_dirty = false) :
    bm.flush fs padX = (bm, fs) := by
  rw [BlockManager.flush]
  simp only [hc, hd, List.foldl_nil, if_false, Bool.false_eq_true, List.map_nil]
  obtain ⟨pw, t, ra, rl, cache, dirty, ls⟩ := bm
  simp_all

theorem flush_data_noop (s : Session) (fs : Fsm) (padX : Nat)
    (hc : s.block_manager.cache = [])
    (hd : s.block_manager.allocation_table_dirty = false)
    (ha : s.block_manager.root_address = s.last_flushed_root_address)
    (hl : s.block_manager.root_outer_length = s.last_flushed_root_length) :
    flush_data s fs padX = (s, fs) := by
  rw [flush_data, bm_flush_noop _ _ _ hc hd]
  simp only [ha, hl]
  rw [if_neg (by simp)]

theorem session_lock_noop (s : Session) (fs : Fsm) (padX : Nat)
    (hc : s.block_manager.cache = [])
    (hd : s.block_manager.allocation_table_dirty = false)
    (ha : s.block_manager.root_address = s.last_flushed_root_address)
    (hl : s.block_manager.root_outer_length = s.last_flushed_root_length) :
    session_lock s fs padX = fs := by
  rw [session_lock, bm_flush_noop _ _ _ hc hd]
  simp only [ha, hl]
  rw [if_neg (by simp)]

end DBS

namespace DBS

/-- The filesystem state after `create_session(p)` on freshly initialized
storage, followed by `flush_data` and `lock` (the three Pareto paddings stand
for the independent samples drawn by each call). -/
def c1_state (p : String) (pad padF padL : Nat) : Fsm :=
  session_lock
    (flush_data (create_session init_storage p pad).1
      (create_session init_storage p pad).2 padF).1
    (flush_data (create_session init_storage p pad).1
      (create_session init_storage p pad).2 padF).2 padL

theorem c1_state_eq (p : String) (pad padF padL : Nat) :
    c1_state p pad padF padL = (create_session init_storage p pad).2 := by
  have hfst : (create_session init_storage p pad).1 =
      ⟨p, ⟨p, [], pad, 20, [], false, 0⟩, pad, 20⟩ := by
    rw [create_session_eq]
  rw [c1_state, hfst, flush_data_noop _ _ _ rfl rfl rfl rfl,
    session_lock_noop _ _ _ rfl rfl rfl rfl]

theorem c1_state_get_slot (p : String) (pad padF padL : Nat) (k : Nat) :
    (c1_state p pad padF padL).get_slot k =
      match (List.range SLOTS_PER_SESSION).reverse.find?
          (fun position => slot_index p position == k) with
      | some position => encrypt_slot p position ⟨pad, 20⟩
      | none => .random k := by
  rw [c1_state_eq, congrArg Prod.snd (create_session_eq p pad), fold_write_slots_get]
  cases hfind : (List.range SLOTS_PER_SESSION).reverse.find?
      (fun position => slot_index p position == k) with
  | some position => rfl
  | none => simp [Fsm.get_slot]

theorem c1_state_data (p : String) (pad padF padL : Nat) :
    (c1_state p pad padF padL).data_regions = [(pad, .root_ct p (table_to_bytes []))] ∧
    (c1_state p pad padF padL).data_size = pad + 20 := by
  rw [c1_state_eq, congrArg Prod.snd (create_session_eq p pad)]
  have h := fold_write_slots_data p ⟨pad, 20⟩ (List.range SLOTS_PER_SESSION)
    ⟨[], [(pad, .root_ct p (table_to_bytes []))], pad + 20, 0⟩
  rw [Prod.mk.injEq] at h
  exact ⟨h.1, h.2⟩

end DBS

namespace DBS

theorem unlock_session_ok (fs : Fsm) (password : String) (vr : Nat × Nat)
    (bm : BlockManager)
    (h1 : (unlock_scan fs password).valid_slots ≠ [])
    (h2 : (unlock_verified fs password).1 = some vr)
    (h3 : BlockManager.load fs password vr.1 vr.2 = .ok bm) :
    unlock_session fs password =
      .ok (⟨password, bm, bm.root_address, bm.root_outer_length⟩,
        if (unlock_verified fs password).2 = [] then fs
        else (unlock_verified fs password).2.foldl
          (fun f position =>
            f.write_slot (slot_index password position)
              (encrypt_slot password position
                ⟨bm.root_address, bm.root_outer_length⟩)) fs) := by
  rw [unlock_session]
  simp only [if_neg h1, h2, h3]

theorem c1_read_root (p : String) (pad padF padL : Nat) :
    (c1_state p pad padF padL).read_region pad 20 =
      some (.root_ct p (table_to_bytes [])) := by
  have hlen : (table_to_bytes []).length = 4 := by rfl
  rw [Fsm.read_region, (c1_state_data p pad padF padL).1]
  rw [List.find?_cons_of_pos _ (by simp [RegionVal.outer_len, hlen, AEAD_TAG_SIZE])]
  rfl

theorem c1_valid_slot_45 (p : String) (pad padF padL : Nat) :
    (45, (⟨pad, 20⟩ : SlotContent)) ∈
      (unlock_scan (c1_state p pad padF padL) p).valid_slots := by
  rw [unlock_scan, unlock_with_keys_valid_slots, List.mem_filterMap]
  refine ⟨45, by decide, ?_⟩
  rw [c1_state_get_slot]
  have hrev : (List.range SLOTS_PER_SESSION).reverse = 45 :: (List.range 45).reverse := by
    decide
  rw [hrev, List.find?_cons_of_pos _ (by simp)]
  simp [encrypt_slot, decrypt_slot]

theorem c1_valid_slots_content (p : String) (pad padF padL : Nat) :
    ∀ pc ∈ (unlock_scan (c1_state p pad padF padL) p).valid_slots,
      pc.2 = (⟨pad, 20⟩ : SlotContent) := by
  intro pc hpc
  rw [unlock_scan, unlock_with_keys_valid_slots, List.mem_filterMap] at hpc
  obtain ⟨pos, hpos, hdec⟩ := hpc
  rw [Option.map_eq_some'] at hdec
  obtain ⟨c, hc, hpc2⟩ := hdec
  rw [c1_state_get_slot] at hc
  rw [← hpc2]
  cases hfind : (List.range SLOTS_PER_SESSION).reverse.find?
      (fun position => slot_index p position == slot_index p pos) with
  | none =>
    rw [hfind] at hc
    simp [decrypt_slot] at hc
  | some q =>
    rw [hfind] at hc
    simp only [encrypt_slot, decrypt_slot] at hc
    split at hc
    · exact (Option.some_inj.mp hc).symm
    · exact absurd hc (by simp)

/-- C1: after `create_session(p)` on fresh storage, followed by `flush_data`
and `lock` (with arbitrary Pareto paddings drawn at each step),
`unlock_session(p)` on the resulting files succeeds and yields an unlocked
session, while `unlock_session(p2)` for any password `p2 ≠ p` fails with
`InvalidPassword`, leaving the manager locked. -/
theorem create_then_unlock_spec (p p2 : String) (pad padF padL : Nat)
    (hne : p2 ≠ p) :
    (∃ s2 fs3, unlock_session (c1_state p pad padF padL) p = .ok (s2, fs3)) ∧
    unlock_session (c1_state p pad padF padL) p2 = .error .invalidPassword := by
  constructor
  · have h45 := c1_valid_slot_45 p pad padF padL
    have hvne : (unlock_scan (c1_state p pad padF padL) p).valid_slots ≠ [] :=
      List.ne_nil_of_mem h45
    have hroot : (decrypt_root_block
        ((c1_state p pad padF padL).read_region pad 20) p).isSome := by
      rw [c1_read_root]
      simp [decrypt_root_block]
    have hver : (unlock_verified (c1_state p pad padF padL) p).1 = some (pad, 20) := by
      rw [unlock_verified]
      exact verify_candidates_all_same _ p _ ⟨pad, 20⟩
        (by rw [(c1_state_data p pad padF padL).2])
        hroot _ _ (c1_valid_slots_content p pad padF padL) hvne
    have htb : table_from_bytes (table_to_bytes []) = some [] := by rfl
    have hload : BlockManager.load (c1_state p pad padF padL) p pad 20 =
        .ok ⟨p, [], pad, 20, [], false, 0⟩ := by
      rw [BlockManager.load, if_neg (by decide), c1_read_root]
      simp [htb, next_logical_offset]
    exact ⟨_, _, unlock_session_ok _ p (pad, 20) _ hvne hver hload⟩
  · have hvalid2 : (unlock_scan (c1_state p pad padF padL) p2).valid_slots = [] := by
      rw [unlock_scan, unlock_with_keys_valid_slots]
      apply List.filterMap_eq_nil.mpr
      intro pos hpos
      rw [c1_state_get_slot]
      cases hfind : (List.range SLOTS_PER_SESSION).reverse.find?
          (fun position => slot_index p position == slot_index p2 pos) with
      | none => rfl
      | some q =>
        simp only [encrypt_slot, decrypt_slot]
        rw [if_neg (fun hc => hne hc.1.symm)]
        rfl
    rw [unlock_session]
    simp [hvalid2]

/-- Witness for the C1 theorem at password "pw", wrong password "xx" and
concrete paddings. -/
theorem create_then_unlock_spec_witness :
    ("xx" : String) ≠ "pw" ∧
    ((∃ s2 fs3, unlock_session (c1_state "pw" 5 0 0) "pw" = .ok (s2, fs3)) ∧
      unlock_session (c1_state "pw" 5 0 0) "xx" = .error .invalidPassword) :=
  ⟨by decide, create_then_unlock_spec "pw" "xx" 5 0 0 (by decide)⟩

end DBS

namespace DBS

theorem read_loop_unfold (fs : Fsm) (bm : BlockManager) (o r : Nat) :
    BlockManager.read_loop fs bm o r =
      if _h0 : r = 0 then .ok ([], bm)
      else
        match find_block bm.allocation_table o with
        | some entry =>
          match bm.ensure_block_cached fs entry.block_id with
          | .error e => .error e
          | .ok bm1 =>
            match cache_lookup bm1.cache entry.block_id with
            | none => .error .blockNotFound
            | some block =>
              if _h1 : 0 < min r (block.used_length - (o - entry.inner_data_offset)) then
                match BlockManager.read_loop fs bm1
                    (o + min r (block.used_length - (o - entry.inner_data_offset)))
                    (r - min r (block.used_length - (o - entry.inner_data_offset))) with
                | .error e => .error e
                | .ok (rest, bm2) =>
                  .ok (block.read_or_zero (o - entry.inner_data_offset)
                    (min r (block.used_length - (o - entry.inner_data_offset))) ++ rest, bm2)
              else
                if _h2 : 0 < min r (entry.inner_length - (o - entry.inner_data_offset)) then
                  match BlockManager.read_loop fs bm1
                      (o + min r (entry.inner_length - (o - entry.inner_data_offset)))
                      (r - min r (entry.inner_length - (o - entry.inner_data_offset))) with
                  | .error e => .error e
                  | .ok (rest, bm2) =>
                    .ok (List.replicate
                      (min r (entry.inner_length - (o - entry.inner_data_offset))) 0 ++ rest,
                      bm2)
                else .ok ([], bm1)
        | none =>
          match BlockManager.read_loop fs bm (o + min r 4096) (r - min r 4096) with
          | .error e => .error e
          | .ok (rest, bm2) => .ok (List.replicate (min r 4096) 0 ++ rest, bm2) := by
  rw [BlockManager.read_loop]

theorem read_or_zero_length (b : DecryptedBlock) (off len : Nat) :
    (b.read_or_zero off len).length = len := by
  rw [DecryptedBlock.read_or_zero]
  split
  · have h1 : ((b.data.drop off).take (min (b.used_length - off) len)).length ≤ len :=
      Nat.le_trans (List.length_take_le _ _) (Nat.min_le_right _ _)
    simp only [List.length_append, List.length_replicate]
    omega
  · simp

theorem replicate_getElem_zero (n i : Nat) (hi : i < n) :
    (List.replicate n (0 : Nat))[i]? = some 0 := by
  rw [List.getElem?_eq_getElem (by simpa using hi)]
  simp

theorem cache_lookup_cons (id : Nat) (blk : DecryptedBlock)
    (cache : List (Nat × DecryptedBlock)) (id2 : Nat) :
    cache_lookup ((id, blk) :: cache) id2 =
      if id = id2 then some blk else cache_lookup cache id2 := by
  by_cases h : id = id2
  · rw [cache_lookup, List.find?_cons_of_pos _ (by simp [h]), if_pos h]
    rfl
  · rw [cache_lookup, List.find?_cons_of_neg _ (by simp [h]), if_neg h]
    rfl

/-- The entries of an allocation table map each logical offset to at most one
block and use distinct block ids (the shape `BlockManager` maintains for its
table; the read path relies on it). -/
def table_consistent (t : List AllocationEntry) : Prop :=
  (∀ e1 ∈ t, ∀ e2 ∈ t, ∀ x : Nat,
    e1.contains_offset x → e2.contains_offset x → e1 = e2) ∧
  (∀ e1 ∈ t, ∀ e2 ∈ t, e1.block_id = e2.block_id → e1 = e2)

/-- Every block ciphertext on disk that belongs to a table entry carries a
`used_length` header within the entry's capacity. -/
def fs_blocks_bounded (fs : Fsm) (t : List AllocationEntry) : Prop :=
  ∀ e ∈ t, ∀ pw bid pt,
    fs.read_region e.address e.outer_length = some (.block_ct pw bid pt) →
    beBytesToNat (pt.take 4) ≤ e.inner_length

/-- Every cached decrypted block belongs to a table entry (keyed by its block
id) and its `used_length` is within that entry's capacity. -/
def cache_bounded (t : List AllocationEntry) (cache : List (Nat × DecryptedBlock)) : Prop :=
  ∀ id blk, cache_lookup cache id = some blk →
    blk.entry ∈ t ∧ blk.entry.block_id = id ∧ blk.used_length ≤ blk.entry.inner_length

theorem ensure_block_cached_ok (bm bm1 : BlockManager) (fs : Fsm) (id : Nat)
    (hens : bm.ensure_block_cached fs id = .ok bm1)
    (hids : ∀ e1 ∈ bm.allocation_table, ∀ e2 ∈ bm.allocation_table,
      e1.block_id = e2.block_id → e1 = e2)
    (hfs : fs_blocks_bounded fs bm.allocation_table)
    (hcache : cache_bounded bm.allocation_table bm.cache) :
    bm1.allocation_table = bm.allocation_table ∧
    cache_bounded bm.allocation_table bm1.cache ∧
    (∀ id2 blk2, cache_lookup bm.cache id2 = some blk2 →
      cache_lookup bm1.cache id2 = some blk2) := by
  rw [BlockManager.ensure_block_cached] at hens
  split at hens
  · cases hens
    exact ⟨rfl, hcache, fun id2 blk2 hh => hh⟩
  · rename_i hmiss
    cases hfind : find_by_id bm.allocation_table id with
    | none => rw [hfind] at hens; simp at hens
    | some entry =>
      rw [hfind] at hens
      simp only [] at hens
      cases hread : fs.read_region entry.address entry.outer_length with
      | none => rw [hread] at hens; simp at hens
      | some rv =>
        rw [hread] at hens
        cases rv with
        | root_ct pw pt => simp at hens
        | block_ct pw bid pt =>
          simp only [] at hens
          split at hens
          · rename_i hpw
            cases hfp : DecryptedBlock.from_plaintext entry pt with
            | none => rw [hfp] at hens; simp at hens
            | some blk =>
              rw [hfp] at hens
              cases hens
              have hmem : entry ∈ bm.allocation_table := by
                rw [find_by_id] at hfind
                exact List.mem_of_find?_eq_some hfind
              have hbid : entry.block_id = id := by
                rw [find_by_id] at hfind
                simpa using List.find?_some hfind
              have hblk : blk.entry = entry ∧
                  blk.used_length = beBytesToNat (pt.take 4) := by
                rw [DecryptedBlock.from_plaintext] at hfp
                split at hfp
                · simp at hfp
                · simp only [] at hfp
                  split at hfp
                  · simp at hfp
                  · cases hfp
                    exact ⟨rfl, rfl⟩
              have hbound : blk.used_length ≤ entry.inner_length := by
                rw [hblk.2]
                exact hfs entry hmem pw bid pt hread
              refine ⟨rfl, ?_, ?_⟩
              · intro id2 blk2 hl
                rw [cache_lookup_cons] at hl
                split at hl
                · rename_i hid2
                  cases hl
                  exact ⟨hblk.1 ▸ hmem, by rw [hblk.1, hbid, hid2], hblk.1 ▸ hbound⟩
                · exact hcache id2 blk2 hl
              · intro id2 blk2 hl
                rw [cache_lookup_cons]
                split
                · rename_i hid2
                  rw [← hid2] at hl
                  rw [hl] at hmiss
                  simp at hmiss
                · exact hl
          · simp at hens

end DBS

namespace DBS

theorem read_loop_spec (fs : Fsm) (r : Nat) :
    ∀ bm o res bm2, BlockManager.read_loop fs bm o r = .ok (res, bm2) →
    table_consistent bm.allocation_table →
    fs_blocks_bounded fs bm.allocation_table →
    cache_bounded bm.allocation_table bm.cache →
    res.length ≤ r ∧
    bm2.allocation_table = bm.allocation_table ∧
    (∀ id blk, cache_lookup bm.cache id = some blk →
      cache_lookup bm2.cache id = some blk) ∧
    cache_bounded bm.allocation_table bm2.cache ∧
    (∀ i, i < res.length →
      (find_block bm.allocation_table (o + i) = none → res[i]? = some 0) ∧
      (∀ entry blk, find_block bm.allocation_table (o + i) = some entry →
        cache_lookup bm2.cache entry.block_id = some blk →
        entry.inner_data_offset + blk.used_length ≤ o + i →
        res[i]? = some 0)) := by
  induction r using Nat.strong_induction_on with
  | _ r ih =>
  intro bm o res bm2 h htab hfs hcache
  by_cases hr : r = 0
  · subst hr
    rw [read_loop_unfold, dif_pos rfl] at h
    simp only [Except.ok.injEq, Prod.mk.injEq] at h
    obtain ⟨hres, hbm2⟩ := h
    subst hres
    subst hbm2
    exact ⟨Nat.le_refl 0, rfl, fun id blk hh => hh, hcache, fun i hi => absurd hi (by simp)⟩
  · rw [read_loop_unfold, dif_neg hr] at h
    cases hfb : find_block bm.allocation_table o with
    | none =>
      rw [hfb] at h
      simp only [] at h
      cases hrec : BlockManager.read_loop fs bm (o + min r 4096) (r - min r 4096) with
      | error e => rw [hrec] at h; simp at h
      | ok pr =>
        rw [hrec] at h
        obtain ⟨rest, bm2x⟩ := pr
        simp only [Except.ok.injEq, Prod.mk.injEq] at h
        obtain ⟨hres, hbm2⟩ := h
        subst hres
        subst hbm2
        have hlt : r - min r 4096 < r := by omega
        obtain ⟨ih1, ih2, ih3, ih4, ih5⟩ :=
          ih (r - min r 4096) hlt bm (o + min r 4096) rest bm2x hrec htab hfs hcache
        refine ⟨?_, ih2, ih3, ih4, ?_⟩
        · simp only [List.length_append, List.length_replicate]
          omega
        · intro i hi
          simp only [List.length_append, List.length_replicate] at hi
          by_cases hic : i < min r 4096
          · have hz : (List.replicate (min r 4096) (0 : Nat) ++ rest)[i]? = some 0 := by
              rw [List.getElem?_append_left (by simpa using hic)]
              exact replicate_getElem_zero _ _ hic
            exact ⟨fun _ => hz, fun _ _ _ _ _ => hz⟩
          · have hrl : i - min r 4096 < rest.length := by omega
            have hget : (List.replicate (min r 4096) (0 : Nat) ++ rest)[i]? =
                rest[i - min r 4096]? := by
              rw [List.getElem?_append_right (by simpa using Nat.le_of_not_lt hic)]
              simp
            have hoff : o + min r 4096 + (i - min r 4096) = o + i := by omega
            obtain ⟨p2, p3⟩ := ih5 (i - min r 4096) hrl
            rw [hoff] at p2 p3
            exact ⟨fun hn => by rw [hget]; exact p2 hn,
              fun entry blk hfb2 hcl hb => by rw [hget]; exact p3 entry blk hfb2 hcl hb⟩
    | some entry =>
      rw [hfb] at h
      simp only [] at h
      cases hens : bm.ensure_block_cached fs entry.block_id with
      | error e => rw [hens] at h; simp at h
      | ok bm1 =>
        rw [hens] at h
        simp only [] at h
        obtain ⟨htab1, hcache1, hmono1⟩ :=
          ensure_block_cached_ok bm bm1 fs entry.block_id hens htab.2 hfs hcache
        cases hcl : cache_lookup bm1.cache entry.block_id with
        | none => rw [hcl] at h; simp at h
        | some block =>
          rw [hcl] at h
          simp only [] at h
          have hmem : entry ∈ bm.allocation_table := by
            rw [find_block] at hfb
            exact List.mem_of_find?_eq_some hfb
          have hcont : entry.contains_offset o = true := by
            rw [find_block] at hfb
            simpa using List.find?_some hfb
          have hcont2 : entry.inner_data_offset ≤ o ∧
              o < entry.inner_data_offset + entry.inner_length := by
            rw [AllocationEntry.contains_offset] at hcont
            simpa using hcont
          have hbe : block.entry = entry := by
            obtain ⟨hbm, hbid, _⟩ := hcache1 entry.block_id block hcl
            exact htab.2 block.entry hbm entry hmem hbid
          have hbu : block.used_length ≤ entry.inner_length := by
            have h3 := (hcache1 entry.block_id block hcl).2.2
            rwa [hbe] at h3
          by_cases htr : 0 < min r (block.used_length - (o - entry.inner_data_offset))
          · rw [dif_pos htr] at h
            cases hrec : BlockManager.read_loop fs bm1
                (o + min r (block.used_length - (o - entry.inner_data_offset)))
                (r - min r (block.used_length - (o - entry.inner_data_offset))) with
            | error e => rw [hrec] at h; simp at h
            | ok pr =>
              rw [hrec] at h
              obtain ⟨rest, bm2x⟩ := pr
              simp only [Except.ok.injEq, Prod.mk.injEq] at h
              obtain ⟨hres, hbm2⟩ := h
              subst hres
              subst hbm2
              have hlt : r - min r (block.used_length - (o - entry.inner_data_offset)) < r := by
                omega
              obtain ⟨ih1, ih2, ih3, ih4, ih5⟩ :=
                ih _ hlt bm1 _ rest bm2x hrec
                  (by rw [htab1]; exact htab) (by rw [htab1]; exact hfs)
                  (by rw [htab1]; exact hcache1)
              rw [htab1] at ih2 ih4 ih5
              refine ⟨?_, ih2, fun id blk hh => ih3 id blk (hmono1 id blk hh), ih4, ?_⟩
              · rw [List.length_append, read_or_zero_length]
                omega
              · intro i hi
                rw [List.length_append, read_or_zero_length] at hi
                by_cases hic : i < min r (block.used_length - (o - entry.inner_data_offset))
                · have hoi : o + i < entry.inner_data_offset + block.used_length := by
                    omega
                  have hcontoi : entry.contains_offset (o + i) = true := by
                    rw [AllocationEntry.contains_offset]
                    simp only [Bool.and_eq_true, decide_eq_true_eq]
                    omega
                  constructor
                  · intro hn
                    rw [find_block] at hn
                    exact absurd hcontoi (by simpa using List.find?_eq_none.mp hn entry hmem)
                  · intro entry2 blk hfb2 hcl2 hb
                    have hmem2 : entry2 ∈ bm.allocation_table := by
                      rw [find_block] at hfb2
                      exact List.mem_of_find?_eq_some hfb2
                    have hcont3 : entry2.contains_offset (o + i) = true := by
                      rw [find_block] at hfb2
                      simpa using List.find?_some hfb2
                    have he : entry2 = entry :=
                      htab.1 entry2 hmem2 entry hmem (o + i) hcont3 hcontoi
                    subst he
                    have hcl3 : cache_lookup bm2x.cache entry2.block_id = some block :=
                      ih3 entry2.block_id block hcl
                    rw [hcl2] at hcl3
                    have hblk2 : blk = block := Option.some_inj.mp hcl3
                    rw [hblk2] at hb
                    exact absurd hb (by omega)
                · have hrl : i - min r (block.used_length - (o - entry.inner_data_offset)) <
                      rest.length := by omega
                  have hget : (block.read_or_zero (o - entry.inner_data_offset)
                        (min r (block.used_length - (o - entry.inner_data_offset)))
                        ++ rest)[i]? =
                      rest[i - min r (block.used_length - (o - entry.inner_data_offset))]? := by
                    rw [List.getElem?_append_right (by rw [read_or_zero_length]; omega)]
                    rw [read_or_zero_length]
                  have hoff : o + min r (block.used_length - (o - entry.inner_data_offset)) +
                      (i - min r (block.used_length - (o - entry.inner_data_offset))) =
                      o + i := by omega
                  obtain ⟨p2, p3⟩ := ih5 _ hrl
                  rw [hoff] at p2 p3
                  exact ⟨fun hn => by rw [hget]; exact p2 hn,
                    fun entry2 blk hfb2 hcl2 hb => by
                      rw [hget]; exact p3 entry2 blk hfb2 hcl2 hb⟩
          · rw [dif_neg htr] at h
            by_cases htf : 0 < min r (entry.inner_length - (o - entry.inner_data_offset))
            · rw [dif_pos htf] at h
              cases hrec : BlockManager.read_loop fs bm1
                  (o + min r (entry.inner_length - (o - entry.inner_data_offset)))
                  (r - min r (entry.inner_length - (o - entry.inner_data_offset))) with
              | error e => rw [hrec] at h; simp at h
              | ok pr =>
                rw [hrec] at h
                obtain ⟨rest, bm2x⟩ := pr
                simp only [Except.ok.injEq, Prod.mk.injEq] at h
                obtain ⟨hres, hbm2⟩ := h
                subst hres
                subst hbm2
                have hlt : r - min r (entry.inner_length - (o - entry.inner_data_offset))
                    < r := by omega
                obtain ⟨ih1, ih2, ih3, ih4, ih5⟩ :=
                  ih _ hlt bm1 _ rest bm2x hrec
                    (by rw [htab1]; exact htab) (by rw [htab1]; exact hfs)
                    (by rw [htab1]; exact hcache1)
                rw [htab1] at ih2 ih4 ih5
                refine ⟨?_, ih2, fun id blk hh => ih3 id blk (hmono1 id blk hh), ih4, ?_⟩
                · simp only [List.length_append, List.length_replicate]
                  omega
                · intro i hi
                  simp only [List.length_append, List.length_replicate] at hi
                  by_cases hic : i < min r (entry.inner_length - (o - entry.inner_data_offset))
                  · have hz : (List.replicate
                        (min r (entry.inner_length - (o - entry.inner_data_offset)))
                        (0 : Nat) ++ rest)[i]? = some 0 := by
                      rw [List.getElem?_append_left (by simpa using hic)]
                      exact replicate_getElem_zero _ _ hic
                    exact ⟨fun _ => hz, fun _ _ _ _ _ => hz⟩
                  · have hrl : i - min r (entry.inner_length - (o - entry.inner_data_offset)) <
                        rest.length := by omega
                    have hget : (List.replicate
                          (min r (entry.inner_length - (o - entry.inner_data_offset)))
                          (0 : Nat) ++ rest)[i]? =
                        rest[i - min r (entry.inner_length - (o - entry.inner_data_offset))]? := by
                      rw [List.getElem?_append_right (by simpa using Nat.le_of_not_lt hic)]
                      simp
                    have hoff : o + min r (entry.inner_length - (o - entry.inner_data_offset)) +
                        (i - min r (entry.inner_length - (o - entry.inner_data_offset))) =
                        o + i := by omega
                    obtain ⟨p2, p3⟩ := ih5 _ hrl
                    rw [hoff] at p2 p3
                    exact ⟨fun hn => by rw [hget]; exact p2 hn,
                      fun entry2 blk hfb2 hcl2 hb => by
                        rw [hget]; exact p3 entry2 blk hfb2 hcl2 hb⟩
            · rw [dif_neg htf] at h
              simp only [Except.ok.injEq, Prod.mk.injEq] at h
              obtain ⟨hres, hbm2⟩ := h
              subst hres
              subst hbm2
              exact ⟨by simp, htab1, hmono1, hcache1, fun i hi => absurd hi (by simp)⟩

end DBS

namespace DBS

/-- C2: on an unlocked session whose allocation table maps each logical offset
to at most one entry and uses distinct block ids, whose on-disk block
ciphertexts respect their entries' capacities, and whose cache is consistent
with the table, every successful `BlockManager.read(o, len)` returns exactly
`len` bytes; every position not covered by any allocation entry reads as a zero
byte, and every position at or beyond the `used_length` of the block that
covers it reads as a zero byte. -/
theorem read_exact_len_spec (bm : BlockManager) (fs : Fsm) (o len : Nat)
    (res : List Nat) (bm2 : BlockManager)
    (h : bm.read fs o len = .ok (res, bm2))
    (htab : table_consistent bm.allocation_table)
    (hfs : fs_blocks_bounded fs bm.allocation_table)
    (hcache : cache_bounded bm.allocation_table bm.cache) :
    res.length = len ∧
    (∀ i, i < len → find_block bm.allocation_table (o + i) = none →
      res[i]? = some 0) ∧
    (∀ i, i < len → ∀ entry blk,
      find_block bm.allocation_table (o + i) = some entry →
      cache_lookup bm2.cache entry.block_id = some blk →
      entry.inner_data_offset + blk.used_length ≤ o + i →
      res[i]? = some 0) := by
  rw [BlockManager.read] at h
  cases hloop : BlockManager.read_loop fs bm o len with
  | error e => rw [hloop] at h; simp at h
  | ok pr =>
    rw [hloop] at h
    obtain ⟨res0, bm2x⟩ := pr
    simp only [Except.ok.injEq, Prod.mk.injEq] at h
    obtain ⟨hres, hbm2⟩ := h
    subst hbm2
    obtain ⟨l1, _l2, _l3, _l4, l5⟩ :=
      read_loop_spec fs len bm o res0 bm2x hloop htab hfs hcache
    subst hres
    refine ⟨?_, ?_, ?_⟩
    · simp only [List.length_append, List.length_replicate]
      omega
    · intro i hi hn
      by_cases hir : i < res0.length
      · rw [List.getElem?_append_left hir]
        exact (l5 i hir).1 hn
      · rw [List.getElem?_append_right (Nat.le_of_not_lt hir)]
        exact replicate_getElem_zero _ _ (by omega)
    · intro i hi entry blk hfb hcl hb
      by_cases hir : i < res0.length
      · rw [List.getElem?_append_left hir]
        exact (l5 i hir).2 entry blk hfb hcl hb
      · rw [List.getElem?_append_right (Nat.le_of_not_lt hir)]
        exact replicate_getElem_zero _ _ (by omega)

/-- A block manager for an unlocked session with an empty allocation table. -/
def c2Bm : BlockManager := ⟨"pw", [], 0, 20, [], false, 0⟩

theorem c2_read_eval : c2Bm.read init_storage 0 3 = .ok ([0, 0, 0], c2Bm) := by
  have h0 : BlockManager.read_loop init_storage c2Bm 3 0 = .ok ([], c2Bm) := by
    rw [read_loop_unfold, dif_pos rfl]
  have h1 : BlockManager.read_loop init_storage c2Bm 0 3 = .ok ([0, 0, 0], c2Bm) := by
    rw [read_loop_unfold, dif_neg (by decide)]
    have hfb : find_block c2Bm.allocation_table 0 = none := rfl
    rw [hfb]
    simp only []
    rw [show (0 + min 3 4096 : Nat) = 3 from rfl, show (3 - min 3 4096 : Nat) = 0 from rfl,
      h0]
    rfl
  rw [BlockManager.read, h1]
  rfl

theorem c2_table_consistent : table_consistent c2Bm.allocation_table :=
  ⟨fun e1 h1 => absurd h1 (by simp [c2Bm]), fun e1 h1 => absurd h1 (by simp [c2Bm])⟩

theorem c2_fs_bounded : fs_blocks_bounded init_storage c2Bm.allocation_table :=
  fun e he => absurd he (by simp [c2Bm])

theorem c2_cache_bounded : cache_bounded c2Bm.allocation_table c2Bm.cache :=
  fun id blk hl => absurd hl (by simp [c2Bm, cache_lookup])

/-- Witness for the C2 theorem: a 3-byte read over unmapped space yields
exactly three zero bytes. -/
theorem read_exact_len_spec_witness :
    c2Bm.read init_storage 0 3 = .ok ([0, 0, 0], c2Bm) ∧
    table_consistent c2Bm.allocation_table ∧
    fs_blocks_bounded init_storage c2Bm.allocation_table ∧
    cache_bounded c2Bm.allocation_table c2Bm.cache ∧
    (([0, 0, 0] : List Nat).length = 3 ∧
      (∀ i, i < 3 → find_block c2Bm.allocation_table (0 + i) = none →
        ([0, 0, 0] : List Nat)[i]? = some 0) ∧
      (∀ i, i < 3 → ∀ entry blk,
        find_block c2Bm.allocation_table (0 + i) = some entry →
        cache_lookup c2Bm.cache entry.block_id = some blk →
        entry.inner_data_offset + blk.used_length ≤ 0 + i →
        ([0, 0, 0] : List Nat)[i]? = some 0)) :=
  ⟨c2_read_eval, c2_table_consistent, c2_fs_bounded, c2_cache_bounded,
    read_exact_len_spec c2Bm init_storage 0 3 [0, 0, 0] c2Bm c2_read_eval
      c2_table_consistent c2_fs_bounded c2_cache_bounded⟩

end DBS
